import Mathlib

/-
Verification of the go_scrap section-segmentation and markdown-chunking
pipeline.  The Go code is embedded shallowly: Go strings become `List Char`
(the sequence of runes of the decoded text), `len(s)` becomes the summed
UTF-8 size `utf8Len`, and each Go function from `internal/output` and
`internal/parse` is translated into a computable Lean definition of the
same name (modulo capitalisation required by Lean).
-/

namespace GoScrap

/-- Go strings, modelled as the list of runes of the decoded text. -/
abbrev GoStr := List Char

/-- Literal helper: the runes of a Lean string literal. -/
def str (s : String) : GoStr := s.data

/-- Go's `unicode.IsSpace`: the Unicode White_Space property
('\t', '\n', '\v', '\f', '\r', ' ', U+0085, U+00A0, and the
higher white-space code points). -/
def isSpaceGo (c : Char) : Bool :=
  c == ' ' || c == '\t' || c == '\n' || c.val == 11 || c.val == 12 ||
  c == '\r' || c.val == 0x85 || c.val == 0xA0 || c.val == 0x1680 ||
  (0x2000 ≤ c.val && c.val ≤ 0x200A) || c.val == 0x2028 || c.val == 0x2029 ||
  c.val == 0x202F || c.val == 0x205F || c.val == 0x3000

/-- Go `len(s)` for a string: the number of bytes of its UTF-8 encoding. -/
def utf8Len (s : GoStr) : Nat := (s.map Char.utf8Size).sum

/-- Go `strings.TrimSpace` (left half): drop leading white space. -/
def trimLeftSpace (s : GoStr) : GoStr := s.dropWhile isSpaceGo

/-- Go `strings.TrimSpace`: drop leading and trailing white space. -/
def trimSpace (s : GoStr) : GoStr :=
  ((s.dropWhile isSpaceGo).reverse.dropWhile isSpaceGo).reverse

/-- `chunkSize` from internal/output: a size measured in the three
metrics bytes / chars / estimated tokens. -/
structure chunkSize where
  bytes : Nat
  chars : Nat
  tokens : Nat
deriving DecidableEq, Repr

/-- `ChunkLimits` from internal/output: independently optional ceilings
(Go `int` fields; 0 or negative = unlimited for that dimension). -/
structure ChunkLimits where
  MaxBytes : Int
  MaxChars : Int
  MaxTokens : Int
deriving DecidableEq, Repr

/-- `ChunkLimits.Enabled`: some ceiling is positive. -/
def ChunkLimits.Enabled (c : ChunkLimits) : Bool :=
  c.MaxBytes > 0 || c.MaxChars > 0 || c.MaxTokens > 0

/-- `ChunkLimits.exceeds`: mirrors the three successive `if` statements of
the Go method; a configured (positive) ceiling strictly surpassed by the
corresponding component of `size` makes the result true. -/
def ChunkLimits.exceeds (c : ChunkLimits) (size : chunkSize) : Bool :=
  if c.MaxBytes > 0 && (size.bytes : Int) > c.MaxBytes then true
  else if c.MaxChars > 0 && (size.chars : Int) > c.MaxChars then true
  else if c.MaxTokens > 0 && (size.tokens : Int) > c.MaxTokens then true
  else false

/-- `estimateTokens` from internal/output. -/
def estimateTokens (chars : Nat) : Nat :=
  if chars == 0 then 0 else (chars + 3) / 4

/-- `sizeOfString` from internal/output. -/
def sizeOfString (s : GoStr) : chunkSize :=
  if s = [] then ⟨0, 0, 0⟩
  else
    let chars := s.length
    ⟨utf8Len s, chars, estimateTokens chars⟩

/-- `chunkSize.add` from internal/output. -/
def chunkSize.add (s o : chunkSize) : chunkSize :=
  ⟨s.bytes + o.bytes, s.chars + o.chars, s.tokens + o.tokens⟩

/-- C1: `Enabled` is true iff some ceiling is positive, and `exceeds` is
true iff at least one configured (positive) ceiling is strictly surpassed
by the corresponding component of the size — OR semantics across the
three metrics. -/
theorem chunkLimits_enabled_and_exceeds_are_or_semantics
    (c : ChunkLimits) (s : chunkSize) :
    (c.Enabled = true ↔ (0 < c.MaxBytes ∨ 0 < c.MaxChars ∨ 0 < c.MaxTokens))
    ∧ (c.exceeds s = true ↔
        ((0 < c.MaxBytes ∧ (s.bytes : Int) > c.MaxBytes)
          ∨ (0 < c.MaxChars ∧ (s.chars : Int) > c.MaxChars)
          ∨ (0 < c.MaxTokens ∧ (s.tokens : Int) > c.MaxTokens))) := by
  constructor
  · simp [ChunkLimits.Enabled]; tauto
  · simp only [ChunkLimits.exceeds]
    split_ifs with h1 h2 h3 <;>
      simp_all [Bool.and_eq_true, decide_eq_true_eq]

/-! ## The bundling algorithm (`bundleParts` from internal/output) -/

/-- The mutable loop state of `bundleParts`: the accumulator string
(`cur strings.Builder`), its tracked size, and the bundles flushed so far. -/
structure BPState where
  cur : GoStr
  curSize : chunkSize
  bundles : List GoStr

/-- One iteration of the `bundleParts` loop, translated statement by
statement from the Go body (trim, skip empties, ensure trailing newline,
flush-if-adding-would-exceed, oversized-solo bundle, append, post-append
flush). -/
def bundleStep (limits : ChunkLimits) (st : BPState) (p0 : GoStr) : BPState :=
  let part := trimSpace p0
  if part = [] then st
  else
    let part := if (str "\n").isSuffixOf part then part else part ++ ['\n']
    let partSize := sizeOfString part
    let st :=
      if 0 < st.curSize.bytes ∧ limits.exceeds (st.curSize.add partSize) = true then
        ⟨[], ⟨0, 0, 0⟩, st.bundles ++ [trimSpace st.cur ++ ['\n']]⟩
      else st
    if st.curSize.bytes = 0 ∧ limits.exceeds partSize = true then
      { st with bundles := st.bundles ++ [trimSpace part ++ ['\n']] }
    else
      let st2 : BPState := ⟨st.cur ++ part, st.curSize.add partSize, st.bundles⟩
      if limits.exceeds st2.curSize = true then
        ⟨[], ⟨0, 0, 0⟩, st2.bundles ++ [trimSpace st2.cur ++ ['\n']]⟩
      else st2

/-- The trailing flush after the `bundleParts` loop. -/
def bundleFinish (st : BPState) : List GoStr :=
  if trimSpace st.cur ≠ [] then st.bundles ++ [trimSpace st.cur ++ ['\n']]
  else st.bundles

/-- `bundleParts` from internal/output. -/
def bundleParts (parts : List GoStr) (limits : ChunkLimits) : List GoStr :=
  bundleFinish (parts.foldl (bundleStep limits) ⟨[], ⟨0, 0, 0⟩, []⟩)

/-! ## Facts about trimming and sizes -/

theorem utf8Len_append (a b : GoStr) :
    utf8Len (a ++ b) = utf8Len a + utf8Len b := by
  simp [utf8Len]

theorem utf8Len_pos {s : GoStr} (h : s ≠ []) : 0 < utf8Len s := by
  cases s with
  | nil => simp at h
  | cons a l =>
      have := Char.utf8Size_pos a
      simp [utf8Len]
      omega

theorem sizeOfString_bytes (s : GoStr) : (sizeOfString s).bytes = utf8Len s := by
  by_cases h : s = [] <;> simp [sizeOfString, h, utf8Len]

theorem trimSpace_nil : trimSpace [] = [] := rfl

/-- `trimSpace s = s` forces both one-sided trims to be the identity. -/
theorem dropWhile_of_trimSpace_eq_self {s : GoStr} (h : trimSpace s = s) :
    s.dropWhile isSpaceGo = s ∧ s.reverse.dropWhile isSpaceGo = s.reverse := by
  have hsuf1 : (s.dropWhile isSpaceGo) <:+ s := List.dropWhile_suffix _
  have hsuf2 : ((s.dropWhile isSpaceGo).reverse.dropWhile isSpaceGo) <:+
      (s.dropWhile isSpaceGo).reverse := List.dropWhile_suffix _
  have hl : ((s.dropWhile isSpaceGo).reverse.dropWhile isSpaceGo).length = s.length := by
    have := congrArg List.length h
    simpa [trimSpace] using this
  have hl2 : ((s.dropWhile isSpaceGo).reverse.dropWhile isSpaceGo).length ≤
      (s.dropWhile isSpaceGo).length := by
    simpa using hsuf2.length_le
  have hl1 : (s.dropWhile isSpaceGo).length ≤ s.length := hsuf1.length_le
  have heq1 : s.dropWhile isSpaceGo = s := hsuf1.eq_of_length (by omega)
  refine ⟨heq1, ?_⟩
  rw [heq1] at hsuf2 hl
  exact hsuf2.eq_of_length (by simpa using hl)

theorem head_not_space_of_trimmed {t : GoStr} {a : Char} {l : GoStr}
    (h : trimSpace t = t) (ht : t = a :: l) : isSpaceGo a = false := by
  have h1 := (dropWhile_of_trimSpace_eq_self h).1
  subst ht
  by_cases ha : isSpaceGo a
  · rw [List.dropWhile_cons_of_pos ha] at h1
    have := List.dropWhile_suffix (l := l) (p := isSpaceGo)
    have hle := this.length_le
    have := congrArg List.length h1
    simp at this
    omega
  · simpa using ha

theorem getLast_not_space_of_trimmed {t : GoStr} {a : Char}
    (h : trimSpace t = t) (ht : t.getLast? = some a) : isSpaceGo a = false := by
  have h2 := (dropWhile_of_trimSpace_eq_self h).2
  have hrev : t.reverse.head? = some a := by simpa using ht
  obtain ⟨m, hm⟩ := List.head?_eq_some_iff.mp hrev
  rw [hm] at h2
  by_cases ha : isSpaceGo a
  · rw [List.dropWhile_cons_of_pos ha] at h2
    have := (List.dropWhile_suffix (l := m) (p := isSpaceGo)).length_le
    have := congrArg List.length h2
    simp at this
    omega
  · simpa using ha

theorem trimSpace_eq_self_of_ends {t : GoStr}
    (hh : ∀ a, t.head? = some a → isSpaceGo a = false)
    (hl : ∀ a, t.getLast? = some a → isSpaceGo a = false) :
    trimSpace t = t := by
  cases t with
  | nil => rfl
  | cons a l =>
      have ha : isSpaceGo a = false := hh a rfl
      have h1 : (a :: l).dropWhile isSpaceGo = a :: l :=
        List.dropWhile_cons_of_neg (by simp [ha])
      obtain ⟨b, hb⟩ : ∃ b, (a :: l).getLast? = some b := by
        cases hgl : (a :: l).getLast? with
        | none => simp [List.getLast?_eq_none_iff] at hgl
        | some b => exact ⟨b, rfl⟩
      have hbrev : (a :: l).reverse.head? = some b := by
        rw [List.head?_reverse]; exact hb
      obtain ⟨m, hm⟩ := List.head?_eq_some_iff.mp hbrev
      have hbns : isSpaceGo b = false := hl b hb
      unfold trimSpace
      rw [h1, hm, List.dropWhile_cons_of_neg (by simp [hbns]), ← hm,
        List.reverse_reverse]

/-- A "normalized rendered section": nonempty trimmed text followed by a
single newline — the shape every rendered part has after the writer's
trim-plus-trailing-newline normalization. -/
def NormBlock (s : GoStr) : Prop :=
  ∃ t, t ≠ [] ∧ trimSpace t = t ∧ s = t ++ ['\n']

theorem NormBlock.trimSpace_eq {s : GoStr} (h : NormBlock s) :
    trimSpace s ++ ['\n'] = s ∧ trimSpace s ≠ [] := by
  obtain ⟨t, htne, htr, rfl⟩ := h
  obtain ⟨a, l, rfl⟩ : ∃ a l, t = a :: l := by
    cases t with
    | nil => simp at htne
    | cons a l => exact ⟨a, l, rfl⟩
  have ha := head_not_space_of_trimmed htr rfl
  have h1 : ((a :: l) ++ ['\n']).dropWhile isSpaceGo = (a :: l) ++ ['\n'] := by
    rw [List.cons_append]
    exact List.dropWhile_cons_of_neg (by simp [ha])
  have h2 : ((a :: l) ++ ['\n']).reverse = '\n' :: (a :: l).reverse := by simp
  have h3 : ((a :: l).reverse).dropWhile isSpaceGo = (a :: l).reverse :=
    (dropWhile_of_trimSpace_eq_self htr).2
  have h4 : trimSpace ((a :: l) ++ ['\n']) = a :: l := by
    unfold trimSpace
    rw [h1, h2, List.dropWhile_cons_of_pos (by decide), h3, List.reverse_reverse]
  have h5 : trimSpace (a :: (l ++ ['\n'])) = a :: l := by
    rw [← List.cons_append]; exact h4
  simp [h5]

theorem NormBlock.append {a b : GoStr} (ha : NormBlock a) (hb : NormBlock b) :
    NormBlock (a ++ b) := by
  obtain ⟨ta, hane, hatr, rfl⟩ := ha
  obtain ⟨tb, hbne, hbtr, rfl⟩ := hb
  refine ⟨ta ++ '\n' :: tb, by simp, ?_, by simp⟩
  obtain ⟨x, l, rfl⟩ : ∃ x l, ta = x :: l := by
    cases ta with
    | nil => simp at hane
    | cons x l => exact ⟨x, l, rfl⟩
  apply trimSpace_eq_self_of_ends
  · intro c hc
    simp at hc
    subst hc
    exact head_not_space_of_trimmed hatr rfl
  · intro c hc
    obtain ⟨b, hb⟩ : ∃ b, tb.getLast? = some b := by
      cases hgl : tb.getLast? with
      | none => rw [List.getLast?_eq_none_iff] at hgl; exact absurd hgl hbne
      | some b => exact ⟨b, rfl⟩
    have hlast : (x :: l ++ '\n' :: tb).getLast? = some b := by
      rw [List.getLast?_eq_head?_reverse]
      simp [List.head?_append, hb]
    rw [hlast] at hc
    obtain rfl : b = c := by simpa using hc
    exact getLast_not_space_of_trimmed hbtr hb

theorem NormBlock.ne_nil {s : GoStr} (h : NormBlock s) : s ≠ [] := by
  obtain ⟨t, _, _, rfl⟩ := h
  simp

theorem NormBlock.no_newline_suffix_of_trim {s : GoStr} (h : NormBlock s) :
    (str "\n").isSuffixOf (trimSpace s) = false := by
  obtain ⟨heq, hne⟩ := h.trimSpace_eq
  by_cases hs : (str "\n").isSuffixOf (trimSpace s)
  · exfalso
    have hsuf : (str "\n") <:+ trimSpace s := by
      simpa using hs
    obtain ⟨u, hu⟩ := hsuf
    have hlast : (trimSpace s).getLast? = some '\n' := by
      rw [← hu]
      simp [str]
    obtain ⟨t, htne, htr, hst⟩ := h
    have htrim : trimSpace s = t := by
      have := heq
      rw [hst] at this ⊢
      exact List.append_cancel_right this
    rw [htrim] at hlast
    have := getLast_not_space_of_trimmed htr hlast
    simp [isSpaceGo] at this
  · exact Bool.eq_false_iff.mpr hs

/-- For a byte-only limit, `exceeds` is exactly "more bytes than `B`". -/
theorem exceeds_bytes_iff {B : Nat} (hB : 0 < B) (sz : chunkSize) :
    (ChunkLimits.mk (B : Int) 0 0).exceeds sz = true ↔ B < sz.bytes := by
  simp only [ChunkLimits.exceeds]
  split_ifs with h1 h2 h3 <;> simp_all

/-- Loop invariant of `bundleParts` under a byte-only limit `B`:
the accumulator is either empty or a normalized block whose tracked byte
count is exact and within budget, every flushed bundle is within budget,
and no input content has been lost. -/
def BPInv (B : Nat) (st : BPState) (consumed : GoStr) : Prop :=
  (st.cur = [] ∧ st.curSize.bytes = 0
    ∨ NormBlock st.cur ∧ st.curSize.bytes = utf8Len st.cur ∧ utf8Len st.cur ≤ B)
  ∧ (∀ bd ∈ st.bundles, utf8Len bd ≤ B)
  ∧ st.bundles.flatten ++ st.cur = consumed

theorem bundleStep_inv (B : Nat) (hB : 0 < B) (st : BPState) (C p : GoStr)
    (hinv : BPInv B st C) (hp : NormBlock p) (hlen : utf8Len p ≤ B) :
    BPInv B (bundleStep ⟨(B : Int), 0, 0⟩ st p) (C ++ p) := by
  obtain ⟨hcur, hbd, hjoin⟩ := hinv
  have heq := hp.trimSpace_eq
  have hsuf := hp.no_newline_suffix_of_trim
  have hpartsz : (sizeOfString p).bytes = utf8Len p := sizeOfString_bytes p
  have hnotexp : ¬ (ChunkLimits.mk (B : Int) 0 0).exceeds (sizeOfString p) = true := by
    rw [exceeds_bytes_iff hB]
    omega
  simp only [bundleStep, hsuf, Bool.false_eq_true, if_false, if_neg heq.2, heq.1]
  rcases hcur with ⟨hnil, hzero⟩ | ⟨hnorm, hsz, hle⟩
  · -- empty accumulator: no flush possible, the part is appended
    have hc1 : ¬ (0 < st.curSize.bytes ∧
        (ChunkLimits.mk (B : Int) 0 0).exceeds (st.curSize.add (sizeOfString p)) = true) := by
      intro h; omega
    rw [if_neg hc1]
    have hc2 : ¬ (st.curSize.bytes = 0 ∧
        (ChunkLimits.mk (B : Int) 0 0).exceeds (sizeOfString p) = true) := by
      intro h; exact hnotexp h.2
    rw [if_neg hc2]
    have hc3 : ¬ (ChunkLimits.mk (B : Int) 0 0).exceeds
        ((⟨st.cur ++ p, st.curSize.add (sizeOfString p), st.bundles⟩ : BPState).curSize) = true := by
      rw [exceeds_bytes_iff hB]
      simp [chunkSize.add, hpartsz]
      omega
    rw [if_neg hc3]
    refine ⟨Or.inr ⟨by rw [hnil]; simpa using hp, ?_, ?_⟩, hbd, ?_⟩
    · simp [chunkSize.add, hpartsz, hnil, hzero, utf8Len_append, utf8Len]
    · simp [hnil, utf8Len_append]
      omega
    · rw [hnil] at hjoin ⊢
      simp at hjoin
      simp [hjoin]
  · -- nonempty accumulator
    have hcne : st.cur ≠ [] := hnorm.ne_nil
    have hpos : 0 < utf8Len st.cur := utf8Len_pos hcne
    have hceq := hnorm.trimSpace_eq
    by_cases hc1 : (0 < st.curSize.bytes ∧
        (ChunkLimits.mk (B : Int) 0 0).exceeds (st.curSize.add (sizeOfString p)) = true)
    · -- flush first, then append the part to a fresh accumulator
      rw [if_pos hc1]
      have hc2 : ¬ ((0 : Nat) = 0 ∧
          (ChunkLimits.mk (B : Int) 0 0).exceeds (sizeOfString p) = true) := by
        intro h; exact hnotexp h.2
      rw [if_neg hc2]
      have hc3 : ¬ (ChunkLimits.mk (B : Int) 0 0).exceeds
          ((⟨[] ++ p, (⟨0, 0, 0⟩ : chunkSize).add (sizeOfString p),
            st.bundles ++ [trimSpace st.cur ++ ['\n']]⟩ : BPState).curSize) = true := by
        rw [exceeds_bytes_iff hB]
        simp [chunkSize.add, hpartsz]
        omega
      rw [if_neg hc3]
      refine ⟨Or.inr ⟨by simpa using hp, ?_, ?_⟩, ?_, ?_⟩
      · simp [chunkSize.add, hpartsz, utf8Len]
      · simpa using hlen
      · intro bd hbd2
        rcases List.mem_append.mp hbd2 with h | h
        · exact hbd bd h
        · simp at h
          rw [h, hceq.1]
          exact hle
      · rw [hceq.1]
        simp [hjoin]
    · -- no flush: the part joins the current accumulator
      rw [if_neg hc1]
      have hnexc : ¬ (ChunkLimits.mk (B : Int) 0 0).exceeds
          (st.curSize.add (sizeOfString p)) = true := by
        intro h; exact hc1 ⟨by omega, h⟩
      have hc2 : ¬ (st.curSize.bytes = 0 ∧
          (ChunkLimits.mk (B : Int) 0 0).exceeds (sizeOfString p) = true) := by
        intro h; omega
      rw [if_neg hc2]
      have hc3 : ¬ (ChunkLimits.mk (B : Int) 0 0).exceeds
          ((⟨st.cur ++ p, st.curSize.add (sizeOfString p), st.bundles⟩ : BPState).curSize) = true :=
        hnexc
      rw [if_neg hc3]
      have hbound : utf8Len st.cur + utf8Len p ≤ B := by
        rw [exceeds_bytes_iff hB] at hnexc
        simp [chunkSize.add, hpartsz] at hnexc
        omega
      refine ⟨Or.inr ⟨hnorm.append hp, ?_, ?_⟩, hbd, ?_⟩
      · simp [chunkSize.add, hpartsz, utf8Len_append, hsz]
      · rw [utf8Len_append]; exact hbound
      · simp [← hjoin]

theorem bundleFold_inv (B : Nat) (hB : 0 < B) :
    ∀ (parts : List GoStr) (st : BPState) (C : GoStr),
    BPInv B st C → (∀ p ∈ parts, NormBlock p ∧ utf8Len p ≤ B) →
    BPInv B (parts.foldl (bundleStep ⟨(B : Int), 0, 0⟩) st) (C ++ parts.flatten) := by
  intro parts
  induction parts with
  | nil => intro st C h _; simpa using h
  | cons p rest ih =>
      intro st C h hps
      have h1 := bundleStep_inv B hB st C p h (hps p (by simp)).1 (hps p (by simp)).2
      have h2 := ih _ _ h1 (fun q hq => hps q (by simp [hq]))
      simpa [List.append_assoc] using h2

theorem bundleFinish_spec (B : Nat) (st : BPState) (C : GoStr) (h : BPInv B st C) :
    (∀ bd ∈ bundleFinish st, utf8Len bd ≤ B) ∧ (bundleFinish st).flatten = C := by
  obtain ⟨hcur, hbd, hjoin⟩ := h
  rcases hcur with ⟨hnil, _⟩ | ⟨hnorm, _, hle⟩
  · rw [bundleFinish, hnil]
    rw [if_neg (by simp [trimSpace_nil])]
    refine ⟨hbd, ?_⟩
    rw [hnil] at hjoin
    simpa using hjoin
  · have hceq := hnorm.trimSpace_eq
    rw [bundleFinish, if_pos hceq.2, hceq.1]
    constructor
    · intro bd hbd2
      rcases List.mem_append.mp hbd2 with hmem | hmem
      · exact hbd bd hmem
      · simp at hmem
        rw [hmem]
        exact hle
    · simp [hjoin]

/-- C2 (amended): for a byte limit `B > 0` and inputs that are normalized
rendered sections (nonempty trimmed text with one trailing newline), each
at most `B` bytes, no bundle produced by `bundleParts` exceeds `B` bytes
and the concatenation of the bundles equals the concatenation of the
inputs. -/
theorem bundleParts_respects_byte_limit_of_normalized
    (B : Nat) (hB : 0 < B) (parts : List GoStr)
    (hp : ∀ p ∈ parts, NormBlock p ∧ utf8Len p ≤ B) :
    (∀ bd ∈ bundleParts parts ⟨(B : Int), 0, 0⟩, utf8Len bd ≤ B)
    ∧ (bundleParts parts ⟨(B : Int), 0, 0⟩).flatten = parts.flatten := by
  have h0 : BPInv B ⟨[], ⟨0, 0, 0⟩, []⟩ [] := ⟨Or.inl ⟨rfl, rfl⟩, by simp, by simp⟩
  have h1 := bundleFold_inv B hB parts _ _ h0 hp
  have h2 := bundleFinish_spec B _ _ (by simpa using h1)
  simpa [bundleParts] using h2

/-- C2, counterexample to the claim as stated: with `MaxBytes = 1` the
single input `"a"` (1 byte, within the limit) yields the bundle `"a\n"`
of 2 bytes, exceeding the limit, and the concatenation of the bundles
differs from the concatenation of the inputs. -/
theorem bundleParts_byte_limit_fails_on_unterminated_input :
    (∀ p ∈ [str "a"], utf8Len p ≤ 1)
    ∧ bundleParts [str "a"] ⟨1, 0, 0⟩ = [str "a\n"]
    ∧ (∃ bd ∈ bundleParts [str "a"] ⟨1, 0, 0⟩, 1 < utf8Len bd)
    ∧ (bundleParts [str "a"] ⟨1, 0, 0⟩).flatten ≠ ([str "a"] : List GoStr).flatten := by
  refine ⟨by decide, by decide, ?_, by decide⟩
  exact ⟨str "a\n", by decide, by decide⟩

/-- C2 witness: the amended theorem applied at `B = 8` and two concrete
normalized parts. -/
theorem bundleParts_respects_byte_limit_witness :
    (0 : Nat) < 8
    ∧ (∀ p ∈ [str "abc\n", str "defg\n"], NormBlock p ∧ utf8Len p ≤ 8)
    ∧ ((∀ bd ∈ bundleParts [str "abc\n", str "defg\n"] ⟨(8 : Int), 0, 0⟩, utf8Len bd ≤ 8)
        ∧ (bundleParts [str "abc\n", str "defg\n"] ⟨(8 : Int), 0, 0⟩).flatten =
            ([str "abc\n", str "defg\n"] : List GoStr).flatten) := by
  have hp : ∀ p ∈ [str "abc\n", str "defg\n"], NormBlock p ∧ utf8Len p ≤ 8 := by
    intro p hmem
    simp only [List.mem_cons, List.mem_singleton, List.not_mem_nil, or_false] at hmem
    rcases hmem with rfl | rfl
    · exact ⟨⟨str "abc", by decide, by decide, by decide⟩, by decide⟩
    · exact ⟨⟨str "defg", by decide, by decide, by decide⟩, by decide⟩
  exact ⟨by decide, hp,
    bundleParts_respects_byte_limit_of_normalized 8 (by decide) _ hp⟩

/-! ## String helpers shared by the splitter (`strings.Split`, `strings.Join`,
`strconv.Itoa`) -/

/-- `strings.Split(s, "\n")`. -/
def splitLines : GoStr → List GoStr
  | [] => [[]]
  | c :: rest =>
    if c = '\n' then [] :: splitLines rest
    else
      match splitLines rest with
      | b :: bs => (c :: b) :: bs
      | [] => [[c]]

/-- `strings.Join(lines, "\n")`. -/
def joinLines : List GoStr → GoStr
  | [] => []
  | [l] => l
  | l :: rest => l ++ '\n' :: joinLines rest

/-- `strings.ReplaceAll(s, "\r\n", "\n")`, with a structural fuel so the
two-character lookahead recurses on the fuel; `fuel = s.length` always
suffices because every round consumes at least one character (the
`fuel = 0` arm is unreachable then). -/
def replaceCRLFAux : Nat → GoStr → GoStr
  | 0, s => s
  | _ + 1, [] => []
  | fuel + 1, c :: rest =>
    if c = '\r' then
      match rest with
      | [] => [c]
      | d :: rest2 =>
        if d = '\n' then '\n' :: replaceCRLFAux fuel rest2
        else c :: replaceCRLFAux fuel (d :: rest2)
    else c :: replaceCRLFAux fuel rest

/-- `strings.ReplaceAll(s, "\r\n", "\n")`. -/
def replaceCRLF (s : GoStr) : GoStr := replaceCRLFAux s.length s

/-- `strings.Split(s, "\n\n")`, with the same structural fuel device as
`replaceCRLFAux`. -/
def splitOnDoubleNlAux : Nat → GoStr → List GoStr
  | 0, s => [s]
  | _ + 1, [] => [[]]
  | fuel + 1, c :: rest =>
    if c = '\n' then
      match rest with
      | [] => [[c]]
      | d :: rest2 =>
        if d = '\n' then [] :: splitOnDoubleNlAux fuel rest2
        else
          match splitOnDoubleNlAux fuel (d :: rest2) with
          | b :: bs => (c :: b) :: bs
          | [] => [[c]]
    else
      match splitOnDoubleNlAux fuel rest with
      | b :: bs => (c :: b) :: bs
      | [] => [[c]]

/-- `strings.Split(s, "\n\n")`. -/
def splitOnDoubleNl (s : GoStr) : List GoStr := splitOnDoubleNlAux s.length s

/-- The decimal digit characters used by `strconv.Itoa`. -/
def digCh (d : Nat) : Char := Char.ofNat (48 + d)

/-- Fuel-driven core of `strconv.Itoa`; the fuel `n + 1` always suffices
because the loop divides by ten each round. -/
def itoaAux : Nat → Nat → List Char → List Char
  | _, 0, acc => acc
  | n, fuel + 1, acc =>
    if n < 10 then digCh n :: acc
    else itoaAux (n / 10) fuel (digCh (n % 10) :: acc)

/-- `strconv.Itoa` for natural numbers (decimal representation). -/
def itoa (n : Nat) : GoStr := itoaAux n (n + 1) []

/-- `fmt.Sprintf("%03d", n)`: decimal, zero-padded on the left to width 3. -/
def pad3 (n : Nat) : GoStr :=
  let d := itoa n
  if d.length < 3 then List.replicate (3 - d.length) '0' ++ d else d

/-! ## The sub-section splitter (`splitMarkdownByHeadings` and the
`chunkWriter` from internal/output) -/

/-- `splitHeadingPrefix` (loop body): skip blank lines; at the first
non-blank line return the trimmed line plus a blank line as the prefix and
the trimmed remainder as the body when it starts with `#`, otherwise no
prefix. -/
def splitHeadingPrefixAux (md : GoStr) : List GoStr → GoStr × GoStr
  | [] => ([], md)
  | line :: rest =>
    if trimSpace line = [] then splitHeadingPrefixAux md rest
    else if (str "#").isPrefixOf (trimSpace line) then
      (trimSpace line ++ str "\n\n", trimSpace (joinLines rest))
    else ([], md)

/-- `splitHeadingPrefix` from internal/output. -/
def splitHeadingPrefixFn (md : GoStr) : GoStr × GoStr :=
  splitHeadingPrefixAux md (splitLines md)

/-- The heading test of `splitOnSubheadings`: a trimmed line starting with
`### `, `#### `, `##### ` or `###### `. -/
def isSubheadingLine (line : GoStr) : Bool :=
  (str "### ").isPrefixOf (trimSpace line) ||
    ((str "#### ").isPrefixOf (trimSpace line) ||
      (str "##### ").isPrefixOf (trimSpace line) ||
      (str "###### ").isPrefixOf (trimSpace line))

/-- `splitOnSubheadings` (loop): accumulate lines, flushing a trimmed block
whenever a sub-heading line starts and the accumulator is nonempty. -/
def splitOnSubheadingsAux : List GoStr → GoStr → List GoStr
  | [], cur => if cur ≠ [] then [trimSpace cur] else []
  | line :: rest, cur =>
    if isSubheadingLine line = true ∧ cur ≠ [] then
      trimSpace cur :: splitOnSubheadingsAux rest (line ++ ['\n'])
    else splitOnSubheadingsAux rest (cur ++ line ++ ['\n'])

/-- `splitOnSubheadings` from internal/output. -/
def splitOnSubheadings (body : GoStr) : List GoStr :=
  splitOnSubheadingsAux (splitLines (replaceCRLF body)) []

/-- `splitOnParagraphs` from internal/output: split on blank lines, trim
each piece, drop the empty ones. -/
def splitOnParagraphs (body : GoStr) : List GoStr :=
  ((splitOnDoubleNl (replaceCRLF body)).map trimSpace).filter (fun b => b ≠ [])

/-- The `chunkWriter` struct from internal/output (`prefix` field named
`pfx` here). -/
structure ChunkWriter where
  pfx : GoStr
  limits : ChunkLimits
  cur : GoStr
  size : chunkSize
  parts : List GoStr

/-- `newChunkWriter` from internal/output. -/
def newChunkWriter (pfx : GoStr) (limits : ChunkLimits) : ChunkWriter :=
  ⟨pfx, limits, pfx, sizeOfString pfx, []⟩

/-- `curHasContentBeyondPrefix` from internal/output. -/
def curHasContentBeyondPfx (cur : chunkSize) (pfx : GoStr) : Bool :=
  if trimSpace pfx = [] then decide (0 < cur.bytes)
  else
    let pfxSize := sizeOfString pfx
    decide (pfxSize.bytes < cur.bytes) || decide (pfxSize.chars < cur.chars) ||
      decide (pfxSize.tokens < cur.tokens)

/-- `chunkWriter.hasContentBeyondPrefix` from internal/output. -/
def ChunkWriter.hasContentBeyondPfx (w : ChunkWriter) : Bool :=
  curHasContentBeyondPfx w.size w.pfx

/-- `chunkWriter.flush` from internal/output. -/
def ChunkWriter.flush (w : ChunkWriter) : ChunkWriter :=
  let out := trimSpace w.cur
  { w with
    parts := if out ≠ [] then w.parts ++ [out ++ ['\n']] else w.parts
    cur := w.pfx
    size := sizeOfString w.pfx }

/-- `chunkWriter.addSubBlock` from internal/output, with the mutation
sequence rendered as nested lets (the flush-first branch fixes `sep = ""`
and recomputes `combined` exactly as the Go body does). -/
def ChunkWriter.addSubBlock (w : ChunkWriter) (sub0 : GoStr) : ChunkWriter :=
  let sub := trimSpace sub0
  if sub = [] then w
  else
    let sep : GoStr := if w.hasContentBeyondPfx = true then str "\n\n" else []
    let combined := (w.size.add (sizeOfString sep)).add (sizeOfString sub)
    if w.hasContentBeyondPfx = true ∧ w.limits.exceeds combined = true then
      let w2 := w.flush
      let w3 := { w2 with cur := w2.cur ++ sub, size := w2.size.add (sizeOfString sub) }
      if w3.limits.exceeds w3.size = true ∧ w3.hasContentBeyondPfx = true then w3.flush
      else w3
    else
      -- the Go body tests `sep != ""`, which holds exactly when
      -- `hasContentBeyondPrefix` returned true above
      if w.hasContentBeyondPfx = true then
        let w2 :=
          { w with
            cur := w.cur ++ str "\n\n"
            size := w.size.add (sizeOfString (str "\n\n")) }
        let w3 := { w2 with cur := w2.cur ++ sub, size := combined }
        if w3.limits.exceeds w3.size = true ∧ w3.hasContentBeyondPfx = true then w3.flush
        else w3
      else
        let w3 := { w with cur := w.cur ++ sub, size := combined }
        if w3.limits.exceeds w3.size = true ∧ w3.hasContentBeyondPfx = true then w3.flush
        else w3

/-- `chunkWriter.expandSubBlocks` from internal/output. -/
def ChunkWriter.expandSubBlocks (w : ChunkWriter) (block : GoStr) : List GoStr :=
  if w.limits.exceeds (sizeOfString block) = true then splitOnParagraphs block
  else [block]

/-- `chunkWriter.AddBlock` from internal/output. -/
def ChunkWriter.AddBlock (w : ChunkWriter) (block0 : GoStr) : ChunkWriter :=
  let block := trimSpace block0
  if block = [] then w
  else (w.expandSubBlocks block).foldl ChunkWriter.addSubBlock w

/-- `chunkWriter.Parts` from internal/output: the final flush of the
accumulator into the part list. -/
def ChunkWriter.Parts (w : ChunkWriter) : List GoStr :=
  let out := trimSpace w.cur
  if out ≠ [] then w.parts ++ [out ++ ['\n']] else w.parts

/-- `splitMarkdownByHeadings` from internal/output. -/
def splitMarkdownByHeadings (md0 : GoStr) (limits : ChunkLimits) : List GoStr :=
  let md := trimSpace md0
  if md = [] then []
  else if ¬ limits.Enabled = true ∨ ¬ limits.exceeds (sizeOfString md) = true then [md]
  else
    let pb := splitHeadingPrefixFn md
    let pfx := if limits.exceeds (sizeOfString pb.1) = true then [] else pb.1
    let blocks := splitOnSubheadings pb.2
    ((blocks.foldl ChunkWriter.AddBlock (newChunkWriter pfx limits))).Parts

/-! ## The per-file split layout (`writeMarkdownFile`, `buildSplitIndex`,
`firstHeadingLine` from internal/output) -/

/-- `firstHeadingLine` (loop): the first non-blank line, trimmed, when it
starts with `#`; otherwise the empty string. -/
def firstHeadingLineAux : List GoStr → GoStr
  | [] => []
  | line :: rest =>
    if trimSpace line = [] then firstHeadingLineAux rest
    else if (str "#").isPrefixOf (trimSpace line) then trimSpace line
    else []

/-- `firstHeadingLine` from internal/output. -/
def firstHeadingLine (md : GoStr) : GoStr := firstHeadingLineAux (splitLines md)

/-- `buildSplitIndex` from internal/output. -/
def buildSplitIndex (heading : GoStr) (partDir : GoStr) (parts : Nat) : GoStr :=
  (if heading ≠ [] then heading ++ str "\n\n" else []) ++
    str "Split into " ++ itoa parts ++ str " parts:\n\n" ++
    ((List.range' 1 parts).map
      (fun i => str "- " ++ partDir ++ str "/part-" ++ pad3 i ++ str ".md\n")).flatten

/-- The layout `writeMarkdownFile` produces on disk: either the single
original file, or a part directory plus an index file. -/
inductive WriteLayout where
  | single (content : GoStr)
  | split (parts : List GoStr) (index : GoStr)
deriving DecidableEq, Repr

/-- The pure decision core of `writeMarkdownFile` from internal/output
(the file writes are abstracted into the returned layout; `baseName` is
`filepath.Base(basePath)`). -/
def writeMarkdownFile (baseName : GoStr) (md : GoStr) (limits : ChunkLimits) : WriteLayout :=
  if ¬ limits.Enabled = true ∨ ¬ limits.exceeds (sizeOfString md) = true then .single md
  else
    let parts := splitMarkdownByHeadings md limits
    if parts.length = 0 then .single md
    else .split parts (buildSplitIndex (firstHeadingLine md) baseName parts.length)

/-- C10: with a nonempty heading prefix, when the last block added makes
the accumulated size exceed the limit, the post-add flush leaves only the
prefix in the accumulator, and `Parts` then emits a final part equal to
the trimmed prefix plus a newline, with no body content beyond it. -/
theorem chunkWriter_emits_prefix_only_final_part :
    splitMarkdownByHeadings (str "# H\n\nxxxxxxxxxxxx") ⟨10, 0, 0⟩ =
      [str "# H\n\nxxxxxxxxxxxx\n", str "# H\n"]
    ∧ (splitHeadingPrefixFn (trimSpace (str "# H\n\nxxxxxxxxxxxx"))).1 = str "# H\n\n"
    ∧ str "# H\n" = trimSpace (str "# H\n\n") ++ ['\n'] := by
  exact ⟨by decide, by decide, by decide⟩

/-- C6, counterexample to the claim as stated: for `"aaaaaa"` under
`MaxBytes = 5` the sub-splitter yields exactly one part, yet
`writeMarkdownFile` still produces the split layout (part directory plus
index) instead of writing the original unsplit content — the code falls
back only on zero parts, not on one. -/
theorem writeMarkdownFile_split_layout_on_single_part :
    (splitMarkdownByHeadings (str "aaaaaa") ⟨5, 0, 0⟩).length = 1
    ∧ writeMarkdownFile (str "content") (str "aaaaaa") ⟨5, 0, 0⟩ =
        WriteLayout.split [str "aaaaaa\n"]
          (str "Split into 1 parts:\n\n- content/part-001.md\n")
    ∧ writeMarkdownFile (str "content") (str "aaaaaa") ⟨5, 0, 0⟩ ≠
        WriteLayout.single (str "aaaaaa") := by
  exact ⟨by decide, by decide, by decide⟩

/-- C6 (amended): `writeMarkdownFile` writes the original unsplit content
exactly when limits are disabled, the content does not exceed them, or the
sub-splitter yields zero parts; whenever the splitter yields one or more
parts (under enabled, exceeded limits) it produces the split layout. -/
theorem writeMarkdownFile_layout_iff (baseName md : GoStr) (limits : ChunkLimits) :
    (writeMarkdownFile baseName md limits = WriteLayout.single md
      ↔ (¬ limits.Enabled = true ∨ ¬ limits.exceeds (sizeOfString md) = true
          ∨ (splitMarkdownByHeadings md limits).length = 0))
    ∧ (limits.Enabled = true → limits.exceeds (sizeOfString md) = true →
        1 ≤ (splitMarkdownByHeadings md limits).length →
        writeMarkdownFile baseName md limits =
          WriteLayout.split (splitMarkdownByHeadings md limits)
            (buildSplitIndex (firstHeadingLine md) baseName
              (splitMarkdownByHeadings md limits).length)) := by
  constructor
  · simp only [writeMarkdownFile]
    split_ifs with h1 h2
    · simp only [true_iff]
      rcases h1 with h | h
      · exact Or.inl h
      · exact Or.inr (Or.inl h)
    · simp [h2]
    · push_neg at h1
      simp [h1.1, h1.2, h2]
  · intro hEn hEx hlen
    simp only [writeMarkdownFile]
    rw [if_neg (by simp [hEn, hEx]), if_neg (by omega)]

/-- C6 witness: the amended split-layout branch applied at the concrete
input `"aaaaaa"` under `MaxBytes = 5`. -/
theorem writeMarkdownFile_layout_iff_witness :
    ((⟨5, 0, 0⟩ : ChunkLimits).Enabled = true)
    ∧ ((⟨5, 0, 0⟩ : ChunkLimits).exceeds (sizeOfString (str "aaaaaa")) = true)
    ∧ 1 ≤ (splitMarkdownByHeadings (str "aaaaaa") ⟨5, 0, 0⟩).length
    ∧ writeMarkdownFile (str "sections") (str "aaaaaa") ⟨5, 0, 0⟩ =
        WriteLayout.split (splitMarkdownByHeadings (str "aaaaaa") ⟨5, 0, 0⟩)
          (buildSplitIndex (firstHeadingLine (str "aaaaaa")) (str "sections")
            (splitMarkdownByHeadings (str "aaaaaa") ⟨5, 0, 0⟩).length) :=
  ⟨by decide, by decide, by decide,
    (writeMarkdownFile_layout_iff (str "sections") (str "aaaaaa") ⟨5, 0, 0⟩).2
      (by decide) (by decide) (by decide)⟩

/-! ## Content preservation of the sub-splitter

"Content" is the sequence of non-white-space characters: every
transformation in the splitter (trimming, splitting on lines, blank lines
and headings, inserting `"\n\n"` separators) only ever adds or removes
white space. -/

/-- The non-white-space character content of a string. -/
def nonSpace (s : GoStr) : GoStr := s.filter (fun c => !isSpaceGo c)

theorem nonSpace_append (a b : GoStr) :
    nonSpace (a ++ b) = nonSpace a ++ nonSpace b := by
  simp [nonSpace]

theorem nonSpace_cons (c : Char) (l : GoStr) :
    nonSpace (c :: l) = (if isSpaceGo c = true then [] else [c]) ++ nonSpace l := by
  by_cases h : isSpaceGo c <;> simp [nonSpace, h]

theorem nonSpace_nil : nonSpace [] = [] := rfl

theorem nonSpace_newline : nonSpace ['\n'] = [] := by decide

theorem nonSpace_doubleNl : nonSpace (str "\n\n") = [] := by decide

theorem nonSpace_dropWhile (s : GoStr) :
    nonSpace (s.dropWhile isSpaceGo) = nonSpace s := by
  induction s with
  | nil => rfl
  | cons a l ih =>
      by_cases ha : isSpaceGo a
      · rw [List.dropWhile_cons_of_pos ha, ih, nonSpace_cons]
        simp [ha]
      · rw [List.dropWhile_cons_of_neg ha]

theorem nonSpace_reverse (s : GoStr) : nonSpace s.reverse = (nonSpace s).reverse := by
  simp [nonSpace]

theorem nonSpace_trimSpace (s : GoStr) : nonSpace (trimSpace s) = nonSpace s := by
  unfold trimSpace
  rw [nonSpace_reverse, nonSpace_dropWhile, nonSpace_reverse, nonSpace_dropWhile,
    List.reverse_reverse]

theorem splitLines_ne_nil (s : GoStr) : splitLines s ≠ [] := by
  cases s with
  | nil => simp [splitLines]
  | cons c rest =>
      by_cases h : c = '\n'
      · simp [splitLines, h]
      · cases hrest : splitLines rest with
        | nil => simp [splitLines, h, hrest]
        | cons b bs => simp [splitLines, h, hrest]

theorem isSpaceGo_newline : isSpaceGo '\n' = true := by decide

theorem isSpaceGo_cr : isSpaceGo '\r' = true := by decide

theorem nonSpace_splitLines (s : GoStr) :
    ((splitLines s).map nonSpace).flatten = nonSpace s := by
  induction s with
  | nil => simp [splitLines, nonSpace]
  | cons c rest ih =>
      by_cases h : c = '\n'
      · subst h
        rw [show splitLines ('\n' :: rest) = [] :: splitLines rest from by
          simp [splitLines]]
        simp only [List.map_cons, List.flatten_cons]
        rw [ih, nonSpace_cons]
        simp [isSpaceGo_newline, nonSpace_nil]
      · cases hrest : splitLines rest with
        | nil => exact absurd hrest (splitLines_ne_nil rest)
        | cons b bs =>
            rw [hrest] at ih
            rw [show splitLines (c :: rest) = (c :: b) :: bs from by
              simp [splitLines, h, hrest]]
            simp only [List.map_cons, List.flatten_cons] at ih ⊢
            rw [nonSpace_cons, nonSpace_cons]
            simp only [List.append_assoc, ih]

theorem joinLines_splitLines (s : GoStr) : joinLines (splitLines s) = s := by
  induction s with
  | nil => rfl
  | cons c rest ih =>
      by_cases h : c = '\n'
      · subst h
        cases hrest : splitLines rest with
        | nil => exact absurd hrest (splitLines_ne_nil rest)
        | cons b bs =>
            rw [hrest] at ih
            simp only [splitLines, if_pos rfl, hrest]
            cases bs with
            | nil => simpa [joinLines] using ih
            | cons b2 r => simpa [joinLines] using ih
      · cases hrest : splitLines rest with
        | nil => exact absurd hrest (splitLines_ne_nil rest)
        | cons b bs =>
            rw [hrest] at ih
            simp only [splitLines, if_neg h, hrest]
            cases bs with
            | nil => simpa [joinLines] using congrArg (c :: ·) ih
            | cons b2 r =>
                simp only [joinLines] at ih ⊢
                rw [List.cons_append, ih]

theorem nonSpace_joinLines_cons (l : GoStr) (rest : List GoStr) :
    nonSpace (joinLines (l :: rest)) = nonSpace l ++ nonSpace (joinLines rest) := by
  cases rest with
  | nil => simp [joinLines, nonSpace_nil]
  | cons b r =>
      simp only [joinLines]
      rw [nonSpace_append, nonSpace_cons]
      simp [isSpaceGo_newline]

theorem nonSpace_replaceCRLFAux :
    ∀ (fuel : Nat) (s : GoStr), nonSpace (replaceCRLFAux fuel s) = nonSpace s
  | 0, _ => rfl
  | _ + 1, [] => rfl
  | fuel + 1, c :: rest => by
      by_cases h : c = '\r'
      · subst h
        cases rest with
        | nil => simp [replaceCRLFAux]
        | cons d rest2 =>
            by_cases hd : d = '\n'
            · subst hd
              rw [show replaceCRLFAux (fuel + 1) ('\r' :: '\n' :: rest2) =
                  '\n' :: replaceCRLFAux fuel rest2 from by simp [replaceCRLFAux]]
              rw [nonSpace_cons, nonSpace_replaceCRLFAux fuel rest2, nonSpace_cons,
                nonSpace_cons]
              simp [isSpaceGo_newline, isSpaceGo_cr]
            · rw [show replaceCRLFAux (fuel + 1) ('\r' :: d :: rest2) =
                  '\r' :: replaceCRLFAux fuel (d :: rest2) from by
                    simp [replaceCRLFAux, hd]]
              rw [nonSpace_cons, nonSpace_replaceCRLFAux fuel (d :: rest2)]
              simp [nonSpace_cons]
      · rw [show replaceCRLFAux (fuel + 1) (c :: rest) =
            c :: replaceCRLFAux fuel rest from by simp [replaceCRLFAux, h]]
        rw [nonSpace_cons, nonSpace_replaceCRLFAux fuel rest, nonSpace_cons]

theorem nonSpace_replaceCRLF (s : GoStr) : nonSpace (replaceCRLF s) = nonSpace s :=
  nonSpace_replaceCRLFAux s.length s

theorem nonSpace_splitOnDoubleNlAux :
    ∀ (fuel : Nat) (s : GoStr),
      ((splitOnDoubleNlAux fuel s).map nonSpace).flatten = nonSpace s
  | 0, s => by simp [splitOnDoubleNlAux]
  | _ + 1, [] => by simp [splitOnDoubleNlAux, nonSpace_nil]
  | fuel + 1, c :: rest => by
      by_cases h : c = '\n'
      · subst h
        cases rest with
        | nil => simp [splitOnDoubleNlAux, nonSpace_newline, nonSpace_nil]
        | cons d rest2 =>
            by_cases hd : d = '\n'
            · subst hd
              rw [show splitOnDoubleNlAux (fuel + 1) ('\n' :: '\n' :: rest2) =
                  [] :: splitOnDoubleNlAux fuel rest2 from by simp [splitOnDoubleNlAux]]
              simp only [List.map_cons, List.flatten_cons]
              rw [nonSpace_splitOnDoubleNlAux fuel rest2, nonSpace_cons, nonSpace_cons]
              simp [isSpaceGo_newline, nonSpace_nil]
            · have ih := nonSpace_splitOnDoubleNlAux fuel (d :: rest2)
              cases haux : splitOnDoubleNlAux fuel (d :: rest2) with
              | nil =>
                  rw [haux] at ih
                  simp only [List.map_nil, List.flatten_nil] at ih
                  rw [show splitOnDoubleNlAux (fuel + 1) ('\n' :: d :: rest2) =
                      [['\n']] from by simp [splitOnDoubleNlAux, hd, haux]]
                  simp only [List.map_cons, List.map_nil, List.flatten_cons,
                    List.flatten_nil]
                  rw [nonSpace_newline, nonSpace_cons, ← ih]
                  simp [isSpaceGo_newline]
              | cons b bs =>
                  rw [haux] at ih
                  simp only [List.map_cons, List.flatten_cons] at ih
                  rw [show splitOnDoubleNlAux (fuel + 1) ('\n' :: d :: rest2) =
                      ('\n' :: b) :: bs from by simp [splitOnDoubleNlAux, hd, haux]]
                  simp only [List.map_cons, List.flatten_cons]
                  rw [nonSpace_cons, nonSpace_cons, List.append_assoc, ih]
      · have ih := nonSpace_splitOnDoubleNlAux fuel rest
        cases haux : splitOnDoubleNlAux fuel rest with
        | nil =>
            rw [haux] at ih
            simp only [List.map_nil, List.flatten_nil] at ih
            rw [show splitOnDoubleNlAux (fuel + 1) (c :: rest) = [[c]] from by
              simp [splitOnDoubleNlAux, h, haux]]
            simp only [List.map_cons, List.map_nil, List.flatten_cons,
              List.flatten_nil]
            rw [nonSpace_cons, nonSpace_cons, ← ih]
            simp [nonSpace_nil]
        | cons b bs =>
            rw [haux] at ih
            simp only [List.map_cons, List.flatten_cons] at ih
            rw [show splitOnDoubleNlAux (fuel + 1) (c :: rest) = (c :: b) :: bs from by
              simp [splitOnDoubleNlAux, h, haux]]
            simp only [List.map_cons, List.flatten_cons]
            rw [nonSpace_cons, nonSpace_cons, List.append_assoc, ih]

theorem nonSpace_splitOnDoubleNl (s : GoStr) :
    ((splitOnDoubleNl s).map nonSpace).flatten = nonSpace s :=
  nonSpace_splitOnDoubleNlAux s.length s

theorem nonSpace_splitOnParagraphs (body : GoStr) :
    ((splitOnParagraphs body).map nonSpace).flatten = nonSpace body := by
  unfold splitOnParagraphs
  have hfilter : ∀ (l : List GoStr),
      ((((l.map trimSpace)).filter (fun b => b ≠ [])).map nonSpace).flatten =
        (l.map nonSpace).flatten := by
    intro l
    induction l with
    | nil => rfl
    | cons b rest ih =>
        simp only [List.map_cons, List.filter_cons]
        by_cases hb : trimSpace b = []
        · rw [if_neg (by simp [hb])]
          have hns : nonSpace b = [] := by
            rw [← nonSpace_trimSpace, hb, nonSpace_nil]
          simp only [List.flatten_cons, hns, List.nil_append]
          exact ih
        · rw [if_pos (by simp [hb])]
          simp only [List.map_cons, List.flatten_cons, nonSpace_trimSpace]
          rw [ih]
  rw [hfilter, nonSpace_splitOnDoubleNl, nonSpace_replaceCRLF]

theorem nonSpace_splitOnSubheadingsAux :
    ∀ (lines : List GoStr) (cur : GoStr),
      ((splitOnSubheadingsAux lines cur).map nonSpace).flatten =
        nonSpace cur ++ (lines.map nonSpace).flatten
  | [], cur => by
      by_cases h : cur = [] <;>
        simp [splitOnSubheadingsAux, h, nonSpace_trimSpace, nonSpace_nil]
  | line :: rest, cur => by
      by_cases h : isSubheadingLine line = true ∧ cur ≠ []
      · simp only [splitOnSubheadingsAux, if_pos h, List.map_cons, List.flatten_cons]
        rw [nonSpace_splitOnSubheadingsAux rest (line ++ ['\n']),
          nonSpace_trimSpace, nonSpace_append, nonSpace_newline]
        simp
      · simp only [splitOnSubheadingsAux, if_neg h]
        rw [nonSpace_splitOnSubheadingsAux rest (cur ++ line ++ ['\n']),
          nonSpace_append, nonSpace_append, nonSpace_newline]
        simp

theorem nonSpace_splitOnSubheadings (body : GoStr) :
    ((splitOnSubheadings body).map nonSpace).flatten = nonSpace body := by
  unfold splitOnSubheadings
  rw [nonSpace_splitOnSubheadingsAux, nonSpace_splitLines, nonSpace_replaceCRLF,
    nonSpace_nil]
  simp

theorem nonSpace_splitHeadingPrefixAux :
    ∀ (lines : List GoStr) (md : GoStr),
      nonSpace (joinLines lines) = nonSpace md →
      nonSpace (splitHeadingPrefixAux md lines).1 ++
        nonSpace (splitHeadingPrefixAux md lines).2 = nonSpace md
  | [], md => by
      intro _
      simp [splitHeadingPrefixAux, nonSpace_nil]
  | line :: rest, md => by
      intro h
      rw [nonSpace_joinLines_cons] at h
      by_cases hb : trimSpace line = []
      · have hline : nonSpace line = [] := by
          rw [← nonSpace_trimSpace, hb, nonSpace_nil]
        rw [hline, List.nil_append] at h
        simp only [splitHeadingPrefixAux, if_pos hb]
        exact nonSpace_splitHeadingPrefixAux rest md h
      · simp only [splitHeadingPrefixAux, if_neg hb]
        by_cases hh : (str "#").isPrefixOf (trimSpace line) = true
        · rw [if_pos hh]
          simp only
          rw [nonSpace_append, nonSpace_doubleNl, nonSpace_trimSpace,
            nonSpace_trimSpace, List.append_nil, ← h]
        · rw [if_neg hh]
          simp [nonSpace_nil]

theorem nonSpace_splitHeadingPrefixFn (md : GoStr) :
    nonSpace (splitHeadingPrefixFn md).1 ++ nonSpace (splitHeadingPrefixFn md).2 =
      nonSpace md := by
  unfold splitHeadingPrefixFn
  exact nonSpace_splitHeadingPrefixAux (splitLines md) md
    (by rw [joinLines_splitLines])

/-- Ghost invariant of the chunk writer for content preservation: every
flushed part's non-space content is the prefix content followed by a body,
the accumulator likewise, and the bodies concatenate to the non-space
content consumed so far. -/
def CWInv (w : ChunkWriter) (consumed : GoStr) : Prop :=
  ∃ (pbs : List GoStr) (cb : GoStr),
    w.parts.map nonSpace = pbs.map (fun b => nonSpace w.pfx ++ b)
    ∧ nonSpace w.cur = nonSpace w.pfx ++ cb
    ∧ pbs.flatten ++ cb = consumed

theorem CWInv.flushPres {w : ChunkWriter} {C : GoStr} (h : CWInv w C) :
    CWInv w.flush C := by
  obtain ⟨pbs, cb, hparts, hcur, hsum⟩ := h
  by_cases hout : trimSpace w.cur = []
  · have hcb : nonSpace w.cur = [] := by
      rw [← nonSpace_trimSpace, hout, nonSpace_nil]
    have hz : nonSpace w.pfx ++ cb = [] := by rw [← hcur]; exact hcb
    refine ⟨pbs, [], ?_, ?_, ?_⟩
    · simpa [ChunkWriter.flush, hout] using hparts
    · simp [ChunkWriter.flush]
    · rw [← hsum, (List.append_eq_nil.mp hz).2]
  · refine ⟨pbs ++ [cb], [], ?_, ?_, ?_⟩
    · show (if trimSpace w.cur ≠ [] then w.parts ++ [trimSpace w.cur ++ ['\n']]
          else w.parts).map nonSpace =
        (pbs ++ [cb]).map (fun b => nonSpace w.pfx ++ b)
      rw [if_pos hout]
      simp only [List.map_append, List.map_cons, List.map_nil, hparts]
      rw [nonSpace_append, nonSpace_trimSpace, nonSpace_newline, List.append_nil, hcur]
    · show nonSpace w.pfx = nonSpace w.pfx ++ []
      simp
    · simp only [List.flatten_append, List.flatten_cons, List.flatten_nil,
        List.append_nil]
      exact hsum

theorem CWInv.appendCur {w : ChunkWriter} {C : GoStr} (h : CWInv w C) (x : GoStr)
    (sz : chunkSize) :
    CWInv { w with cur := w.cur ++ x, size := sz } (C ++ nonSpace x) := by
  obtain ⟨pbs, cb, hparts, hcur, hsum⟩ := h
  refine ⟨pbs, cb ++ nonSpace x, ?_, ?_, ?_⟩
  · exact hparts
  · show nonSpace (w.cur ++ x) = nonSpace w.pfx ++ (cb ++ nonSpace x)
    rw [nonSpace_append, hcur, List.append_assoc]
  · rw [← List.append_assoc, hsum]

/-- The final conditional flush shared by every `addSubBlock` branch. -/
theorem CWInv.finalStep {w1 : ChunkWriter} {C1 : GoStr} (h : CWInv w1 C1)
    (c : Prop) [Decidable c] : CWInv (if c then w1.flush else w1) C1 := by
  split
  · exact h.flushPres
  · exact h

theorem CWInv.addSubBlockPres {w : ChunkWriter} {C : GoStr} (h : CWInv w C)
    (sub : GoStr) : CWInv (w.addSubBlock sub) (C ++ nonSpace sub) := by
  have hns := nonSpace_trimSpace sub
  simp only [ChunkWriter.addSubBlock]
  by_cases hsub : trimSpace sub = []
  · rw [if_pos hsub]
    have hz : nonSpace sub = [] := by rw [← hns, hsub, nonSpace_nil]
    rw [hz, List.append_nil]
    exact h
  · rw [if_neg hsub]
    by_cases hB : w.hasContentBeyondPfx = true
    · simp only [if_pos hB]
      split
      · -- flush first, then append to the fresh accumulator
        have h3 := (h.flushPres).appendCur (trimSpace sub)
          (w.flush.size.add (sizeOfString (trimSpace sub)))
        rw [hns] at h3
        exact h3.finalStep _
      · -- append the separator, then the sub-block
        have h2 := h.appendCur (str "\n\n") (w.size.add (sizeOfString (str "\n\n")))
        rw [nonSpace_doubleNl, List.append_nil] at h2
        have h3 := h2.appendCur (trimSpace sub)
          ((w.size.add (sizeOfString (str "\n\n"))).add (sizeOfString (trimSpace sub)))
        rw [hns] at h3
        exact h3.finalStep _
    · simp only [if_neg hB]
      rw [if_neg (fun hc => hB hc.1)]
      -- no separator: append the sub-block directly
      have h3 := h.appendCur (trimSpace sub)
        ((w.size.add (sizeOfString ([] : GoStr))).add (sizeOfString (trimSpace sub)))
      rw [hns] at h3
      exact h3.finalStep _

theorem CWInv.addBlockPres {w : ChunkWriter} {C : GoStr} (h : CWInv w C)
    (block : GoStr) : CWInv (w.AddBlock block) (C ++ nonSpace block) := by
  have hfold : ∀ (subs : List GoStr) (w1 : ChunkWriter) (C1 : GoStr), CWInv w1 C1 →
      CWInv (subs.foldl ChunkWriter.addSubBlock w1)
        (C1 ++ (subs.map nonSpace).flatten) := by
    intro subs
    induction subs with
    | nil => intro w1 C1 h1; simpa using h1
    | cons s rest ih =>
        intro w1 C1 h1
        have h2 := ih _ _ (h1.addSubBlockPres s)
        simpa [List.append_assoc] using h2
  unfold ChunkWriter.AddBlock
  by_cases hb : trimSpace block = []
  · rw [if_pos hb]
    have hz : nonSpace block = [] := by rw [← nonSpace_trimSpace, hb, nonSpace_nil]
    rw [hz, List.append_nil]
    exact h
  · rw [if_neg hb]
    have hexp : ((w.expandSubBlocks (trimSpace block)).map nonSpace).flatten =
        nonSpace block := by
      unfold ChunkWriter.expandSubBlocks
      split
      · rw [nonSpace_splitOnParagraphs, nonSpace_trimSpace]
      · simp [nonSpace_trimSpace]
    have h2 := hfold (w.expandSubBlocks (trimSpace block)) w C h
    rw [hexp] at h2
    exact h2

theorem CWInv.foldBlocksPres :
    ∀ (blocks : List GoStr) (w : ChunkWriter) (C : GoStr), CWInv w C →
      CWInv (blocks.foldl ChunkWriter.AddBlock w)
        (C ++ (blocks.map nonSpace).flatten)
  | [], w, C => fun h => by simpa using h
  | b :: rest, w, C => fun h => by
      have h2 := CWInv.foldBlocksPres rest _ _ (h.addBlockPres b)
      simpa [List.append_assoc] using h2

theorem CWInv.partsSpec {w : ChunkWriter} {C : GoStr} (h : CWInv w C) :
    ∃ bodies : List GoStr,
      w.Parts.map nonSpace = bodies.map (fun b => nonSpace w.pfx ++ b)
      ∧ bodies.flatten = C := by
  obtain ⟨pbs, cb, hparts, hcur, hsum⟩ := h
  unfold ChunkWriter.Parts
  by_cases hout : trimSpace w.cur = []
  · rw [if_neg (by simp [hout])]
    refine ⟨pbs, hparts, ?_⟩
    have hcb : nonSpace w.cur = [] := by
      rw [← nonSpace_trimSpace, hout, nonSpace_nil]
    have hz : nonSpace w.pfx ++ cb = [] := by rw [← hcur]; exact hcb
    rw [← hsum, (List.append_eq_nil.mp hz).2, List.append_nil]
  · rw [if_pos hout]
    refine ⟨pbs ++ [cb], ?_, ?_⟩
    · simp only [List.map_append, List.map_cons, List.map_nil, hparts]
      rw [nonSpace_append, nonSpace_trimSpace, nonSpace_newline, List.append_nil, hcur]
    · simp only [List.flatten_append, List.flatten_cons, List.flatten_nil,
        List.append_nil]
      exact hsum

theorem flush_pfx (w : ChunkWriter) : w.flush.pfx = w.pfx := rfl

theorem addSubBlock_pfx (w : ChunkWriter) (sub : GoStr) :
    (w.addSubBlock sub).pfx = w.pfx := by
  simp only [ChunkWriter.addSubBlock]
  by_cases hsub : trimSpace sub = []
  · rw [if_pos hsub]
  · rw [if_neg hsub]
    by_cases hB : w.hasContentBeyondPfx = true
    · simp only [if_pos hB]
      split
      · split <;> rfl
      · split <;> rfl
    · simp only [if_neg hB]
      rw [if_neg (fun hc => hB hc.1)]
      split <;> rfl

theorem foldl_addSubBlock_pfx :
    ∀ (subs : List GoStr) (w : ChunkWriter),
      (subs.foldl ChunkWriter.addSubBlock w).pfx = w.pfx
  | [], _ => rfl
  | s :: rest, w => by
      rw [List.foldl_cons, foldl_addSubBlock_pfx rest, addSubBlock_pfx]

theorem AddBlock_pfx (w : ChunkWriter) (b : GoStr) : (w.AddBlock b).pfx = w.pfx := by
  simp only [ChunkWriter.AddBlock]
  by_cases hb : trimSpace b = []
  · rw [if_pos hb]
  · rw [if_neg hb]
    exact foldl_addSubBlock_pfx _ w

theorem foldl_AddBlock_pfx :
    ∀ (blocks : List GoStr) (w : ChunkWriter),
      (blocks.foldl ChunkWriter.AddBlock w).pfx = w.pfx
  | [], _ => rfl
  | b :: rest, w => by
      rw [List.foldl_cons, foldl_AddBlock_pfx rest, AddBlock_pfx]

theorem exceeds_zero (c : ChunkLimits) : c.exceeds ⟨0, 0, 0⟩ = false := by
  unfold ChunkLimits.exceeds
  split_ifs with h1 h2 h3 <;> simp_all <;> omega

/-- The prefix the sub-splitter seeds every part with: the heading prefix
of the trimmed input, dropped when it alone already exceeds the limit. -/
def usedPfx (md : GoStr) (limits : ChunkLimits) : GoStr :=
  if limits.exceeds (sizeOfString (splitHeadingPrefixFn (trimSpace md)).1) = true then []
  else (splitHeadingPrefixFn (trimSpace md)).1

/-- C3: for every oversized single-section Markdown string (limits enabled
and exceeded) the sub-splitter drops no content: every emitted part's
non-space content is the seeded prefix content followed by a body, the
bodies concatenate to exactly the non-space content of the input's body,
and prefix plus body content account for the whole input.  (Termination
is witnessed by the totality of all the embedded definitions; white space
is normalized by design — trimming and `"\n\n"` separators — so content
is compared as the sequence of non-white-space characters.) -/
theorem splitMarkdownByHeadings_preserves_content
    (md : GoStr) (limits : ChunkLimits)
    (hEn : limits.Enabled = true)
    (hEx : limits.exceeds (sizeOfString (trimSpace md)) = true) :
    ∃ bodies : List GoStr,
      (splitMarkdownByHeadings md limits).map nonSpace =
        bodies.map (fun b => nonSpace (usedPfx md limits) ++ b)
      ∧ bodies.flatten = nonSpace (splitHeadingPrefixFn (trimSpace md)).2
      ∧ nonSpace (splitHeadingPrefixFn (trimSpace md)).1 ++
          nonSpace (splitHeadingPrefixFn (trimSpace md)).2 = nonSpace md := by
  have hmd : ¬ trimSpace md = [] := by
    intro h0
    rw [h0, show sizeOfString ([] : GoStr) = ⟨0, 0, 0⟩ from rfl, exceeds_zero] at hEx
    exact Bool.false_ne_true hEx
  simp only [splitMarkdownByHeadings]
  rw [if_neg hmd, if_neg (by simp [hEn, hEx]),
    show (if limits.exceeds (sizeOfString (splitHeadingPrefixFn (trimSpace md)).1) = true
        then ([] : GoStr) else (splitHeadingPrefixFn (trimSpace md)).1) =
      usedPfx md limits from rfl]
  have h0 : CWInv (newChunkWriter (usedPfx md limits) limits) [] :=
    ⟨[], [], by simp [newChunkWriter], by simp [newChunkWriter], rfl⟩
  have hrun := CWInv.foldBlocksPres
    (splitOnSubheadings (splitHeadingPrefixFn (trimSpace md)).2) _ _ h0
  obtain ⟨bodies, hbp, hbf⟩ := hrun.partsSpec
  have hpfx : ((splitOnSubheadings (splitHeadingPrefixFn (trimSpace md)).2).foldl
      ChunkWriter.AddBlock (newChunkWriter (usedPfx md limits) limits)).pfx =
      usedPfx md limits := by
    rw [foldl_AddBlock_pfx]
    rfl
  rw [hpfx] at hbp
  refine ⟨bodies, hbp, ?_, ?_⟩
  · rw [hbf, List.nil_append, nonSpace_splitOnSubheadings]
  · rw [nonSpace_splitHeadingPrefixFn, nonSpace_trimSpace]

/-- C3 witness: the content-preservation theorem applied at a concrete
oversized section. -/
theorem splitMarkdownByHeadings_preserves_content_witness :
    ((⟨10, 0, 0⟩ : ChunkLimits).Enabled = true)
    ∧ ((⟨10, 0, 0⟩ : ChunkLimits).exceeds
        (sizeOfString (trimSpace (str "# Top\n\nbody text here"))) = true)
    ∧ (∃ bodies : List GoStr,
        (splitMarkdownByHeadings (str "# Top\n\nbody text here") ⟨10, 0, 0⟩).map nonSpace =
          bodies.map (fun b => nonSpace (usedPfx (str "# Top\n\nbody text here") ⟨10, 0, 0⟩) ++ b)
        ∧ bodies.flatten =
            nonSpace (splitHeadingPrefixFn (trimSpace (str "# Top\n\nbody text here"))).2
        ∧ nonSpace (splitHeadingPrefixFn (trimSpace (str "# Top\n\nbody text here"))).1 ++
            nonSpace (splitHeadingPrefixFn (trimSpace (str "# Top\n\nbody text here"))).2 =
            nonSpace (str "# Top\n\nbody text here")) :=
  ⟨by decide, by decide,
    splitMarkdownByHeadings_preserves_content (str "# Top\n\nbody text here") ⟨10, 0, 0⟩
      (by decide) (by decide)⟩

/-! ## Heading-ID resolution (`slugifyHeading` / `deduplicateID` from
internal/parse) -/

/-- Go `strings.ToLower` restricted to ASCII letters (the full Unicode
case tables are outside the embedding; every heading in the claims is
ASCII). -/
def toLowerGo (s : GoStr) : GoStr := s.map Char.toLower

/-- A character kept (not replaced) by the slug regexp `[^a-z0-9]+`. -/
def isSlugChar (c : Char) : Bool := ('a' ≤ c && c ≤ 'z') || ('0' ≤ c && c ≤ '9')

/-- `slugRegexp.ReplaceAllString(text, "_")`: every maximal run of
non-`[a-z0-9]` characters becomes one underscore (the flag tracks whether
we are inside such a run). -/
def slugReplAux : Bool → GoStr → GoStr
  | _, [] => []
  | inRun, c :: rest =>
    if isSlugChar c then c :: slugReplAux false rest
    else if inRun then slugReplAux true rest
    else '_' :: slugReplAux true rest

def slugRepl (s : GoStr) : GoStr := slugReplAux false s

/-- `strings.Trim(s, "_")` (the cut set is the single underscore). -/
def trimChar (cut : Char) (s : GoStr) : GoStr :=
  ((s.dropWhile (fun c => c == cut)).reverse.dropWhile (fun c => c == cut)).reverse

/-- `slugifyHeading` from internal/parse. -/
def slugifyHeading (text : GoStr) : GoStr :=
  trimChar '_' (slugRepl (trimSpace (toLowerGo text)))

/-- Decimal evaluation of a digit string (fold of `d ↦ 10*acc + digit`),
used to invert `itoa`. -/
def ofDig : Nat → List Char → Nat
  | a, [] => a
  | a, c :: cs => ofDig (a * 10 + (c.toNat - 48)) cs

theorem digCh_toNat : ∀ d, d < 10 → (digCh d).toNat = 48 + d := by decide

theorem ofDig_cons (a : Nat) (c : Char) (cs : List Char) :
    ofDig a (c :: cs) = ofDig (a * 10 + (c.toNat - 48)) cs := rfl

theorem ofDig_itoaAux :
    ∀ (fuel n : Nat), n < fuel →
      ∃ E : Nat, 0 < E ∧ n < 10 ^ E ∧
        ∀ (acc : List Char) (a : Nat),
          ofDig a (itoaAux n fuel acc) = ofDig (a * 10 ^ E + n) acc := by
  intro fuel
  induction fuel with
  | zero => intro n h; exact absurd h (Nat.not_lt_zero n)
  | succ fuel ih =>
      intro n _
      by_cases h10 : n < 10
      · refine ⟨1, by omega, by omega, ?_⟩
        intro acc a
        simp only [itoaAux, if_pos h10]
        rw [ofDig_cons]
        have harg : a * 10 + ((digCh n).toNat - 48) = a * 10 ^ 1 + n := by
          rw [digCh_toNat n h10, pow_one]
          omega
        rw [harg]
      · have hpos : 0 < n := by omega
        have hdiv : n / 10 < n := Nat.div_lt_self hpos (by omega)
        have hlt : n / 10 < fuel := by omega
        obtain ⟨E, hE, hnlt, hspec⟩ := ih (n / 10) hlt
        have hmodlt : n % 10 < 10 := Nat.mod_lt _ (by omega)
        have hdm : 10 * (n / 10) + n % 10 = n := Nat.div_add_mod n 10
        refine ⟨E + 1, by omega, ?_, ?_⟩
        · have hlt2 : n < 10 * 10 ^ E := by omega
          calc n < 10 * 10 ^ E := hlt2
            _ = 10 ^ (E + 1) := by ring
        · intro acc a
          simp only [itoaAux, if_neg h10]
          rw [hspec (digCh (n % 10) :: acc) a, ofDig_cons, digCh_toNat _ hmodlt]
          have harg : (a * 10 ^ E + n / 10) * 10 + (48 + n % 10 - 48) =
              a * 10 ^ (E + 1) + n := by
            have hpow : 10 ^ (E + 1) = 10 ^ E * 10 := by ring
            rw [hpow]
            have hx : 48 + n % 10 - 48 = n % 10 := by omega
            rw [hx, Nat.add_mul, Nat.mul_assoc]
            omega
          rw [harg]

/-- `itoa` decimal strings evaluate back to their number. -/
theorem ofDig_itoa (n : Nat) : ofDig 0 (itoa n) = n := by
  obtain ⟨E, _, _, hspec⟩ := ofDig_itoaAux (n + 1) n (by omega)
  have h := hspec [] 0
  rw [show ofDig (0 * 10 ^ E + n) [] = 0 * 10 ^ E + n from rfl] at h
  show ofDig 0 (itoaAux n (n + 1) []) = n
  rw [h]
  omega

theorem itoa_injective : Function.Injective itoa := by
  intro a b h
  have h2 := congrArg (ofDig 0) h
  rwa [ofDig_itoa, ofDig_itoa] at h2

/-- `id + "_" + strconv.Itoa(counter)`. -/
def suffixedID (id : GoStr) (c : Nat) : GoStr := id ++ '_' :: itoa c

theorem suffixedID_injective (id : GoStr) :
    Function.Injective (suffixedID id) := by
  intro a b h
  unfold suffixedID at h
  have h2 := List.append_cancel_left h
  exact itoa_injective (List.cons.inj h2).2

theorem suffixedID_ne_base (id : GoStr) (c : Nat) : suffixedID id c ≠ id := by
  intro heq
  have hlen := congrArg List.length heq
  simp [suffixedID] at hlen

/-- The collision loop of `deduplicateID`, with a structural fuel bound;
`seen.length + 1` rounds always reach a free suffix because the candidate
IDs are pairwise distinct (`suffixedID_injective`). -/
def dedupLoop (id : GoStr) (seen : List GoStr) : Nat → Nat → GoStr
  | _, 0 => []
  | c, fuel + 1 =>
    if suffixedID id c ∈ seen then dedupLoop id seen (c + 1) fuel
    else suffixedID id c

/-- `deduplicateID` from internal/parse: the first occurrence of an ID is
used as-is, later collisions try `_2`, `_3`, ... until unused; empty IDs
pass through.  The Go seen-map is the list of already-assigned IDs. -/
def deduplicateID (id : GoStr) (seen : List GoStr) : GoStr × List GoStr :=
  if id = [] then ([], seen)
  else if id ∈ seen then
    let newID := dedupLoop id seen 2 (seen.length + 1)
    (newID, newID :: seen)
  else (id, id :: seen)

/-- The ID-resolution walk `Parse` performs for headings without a source
`id` attribute: slugify the heading text, then deduplicate against the
per-document seen-set, in document order. -/
def resolveHeadingIDsAux : List GoStr → List GoStr → List GoStr
  | [], _ => []
  | t :: rest, seen =>
    let p := deduplicateID (slugifyHeading t) seen
    p.1 :: resolveHeadingIDsAux rest p.2

def resolveHeadingIDs (texts : List GoStr) : List GoStr :=
  resolveHeadingIDsAux texts []

theorem dedupLoop_walk (id : GoStr) (seen : List GoStr) :
    ∀ (j c fuel : Nat), j < fuel →
      (∀ i, c ≤ i → i < c + j → suffixedID id i ∈ seen) →
      suffixedID id (c + j) ∉ seen →
      dedupLoop id seen c fuel = suffixedID id (c + j)
  | 0, c, fuel + 1, _, _, hfree => by
      simp only [dedupLoop]
      rw [if_neg (by simpa using hfree)]
      simp
  | j + 1, c, fuel + 1, hj, hmem, hfree => by
      simp only [dedupLoop]
      rw [if_pos (hmem c (le_refl c) (by omega))]
      have h2 := dedupLoop_walk id seen j (c + 1) fuel (by omega)
        (fun i hi1 hi2 => hmem i (by omega) (by omega))
        (by rw [show c + 1 + j = c + (j + 1) from by omega]; exact hfree)
      rw [h2, show c + 1 + j = c + (j + 1) from by omega]

/-- Pigeonhole: within any window of `seen.length + 1` consecutive
counters some suffixed candidate is not in `seen` (the candidates are
pairwise distinct). -/
theorem dedupLoop_free_exists (id : GoStr) (seen : List GoStr) (c : Nat) :
    ∃ j, j < seen.length + 1 ∧ suffixedID id (c + j) ∉ seen := by
  by_contra hno
  push_neg at hno
  have hinj : Function.Injective (fun j => suffixedID id (c + j)) := by
    intro a b hab
    have := suffixedID_injective id hab
    omega
  have hsub : ((List.range (seen.length + 1)).map
      (fun j => suffixedID id (c + j))).toFinset ⊆ seen.toFinset := by
    intro x hx
    rw [List.mem_toFinset] at hx ⊢
    obtain ⟨j, hj, rfl⟩ := List.mem_map.mp hx
    exact hno j (List.mem_range.mp hj)
  have hnodup : ((List.range (seen.length + 1)).map
      (fun j => suffixedID id (c + j))).Nodup :=
    (List.nodup_range _).map hinj
  have h1 := List.toFinset_card_of_nodup hnodup
  have h2 := Finset.card_le_card hsub
  have h3 := seen.toFinset_card_le
  simp at h1
  omega

/-- The fuel of `dedupLoop` never runs out: whenever some candidate in
range is free, the loop returns a nonempty ID outside the seen-set. -/
theorem dedupLoop_not_mem (id : GoStr) (seen : List GoStr) :
    ∀ (fuel c : Nat), (∃ j, j < fuel ∧ suffixedID id (c + j) ∉ seen) →
      dedupLoop id seen c fuel ∉ seen ∧ dedupLoop id seen c fuel ≠ []
  | 0, c => fun ⟨j, hj, _⟩ => absurd hj (Nat.not_lt_zero j)
  | fuel + 1, c => fun ⟨j, hj, hfree⟩ => by
      simp only [dedupLoop]
      by_cases hc : suffixedID id c ∈ seen
      · rw [if_pos hc]
        obtain ⟨j2, rfl⟩ : ∃ j2, j = j2 + 1 := by
          cases j with
          | zero => exact absurd hc (by simpa using hfree)
          | succ j2 => exact ⟨j2, rfl⟩
        exact dedupLoop_not_mem id seen fuel (c + 1)
          ⟨j2, by omega, by rw [show c + 1 + j2 = c + (j2 + 1) from by omega]; exact hfree⟩
      · rw [if_neg hc]
        refine ⟨hc, ?_⟩
        simp [suffixedID]

/-- `deduplicateID` never reuses an ID: for a nonempty input ID the
resolved ID is fresh (not in the seen-set) and is recorded in the updated
set. -/
theorem deduplicateID_fresh (id : GoStr) (seen : List GoStr) (hid : id ≠ []) :
    (deduplicateID id seen).1 ∉ seen
    ∧ (deduplicateID id seen).2 = (deduplicateID id seen).1 :: seen := by
  unfold deduplicateID
  rw [if_neg hid]
  by_cases hmem : id ∈ seen
  · rw [if_pos hmem]
    have h := dedupLoop_not_mem id seen (seen.length + 1) 2
      (by
        obtain ⟨j, hj, hfree⟩ := dedupLoop_free_exists id seen 2
        exact ⟨j, hj, hfree⟩)
    exact ⟨h.1, rfl⟩
  · rw [if_neg hmem]
    exact ⟨hmem, rfl⟩

/-- The seen-set after `k` identical "Introduction" headings: the base
slug plus the suffixed IDs `_2 .. _k`, most recently assigned first. -/
def introSeen (k : Nat) : List GoStr :=
  ((List.range' 2 (k - 1)).map (suffixedID (str "introduction"))).reverse ++
    [str "introduction"]

theorem introSeen_length (m : Nat) : (introSeen (m + 1)).length = m + 1 := by
  simp [introSeen]

theorem mem_introSeen {x : GoStr} {m : Nat} :
    x ∈ introSeen (m + 1) ↔
      x = str "introduction" ∨
        ∃ i, 2 ≤ i ∧ i < m + 2 ∧ x = suffixedID (str "introduction") i := by
  simp only [introSeen, Nat.add_sub_cancel, List.mem_append, List.mem_reverse,
    List.mem_map, List.mem_range'_1, List.mem_singleton]
  constructor
  · rintro (⟨i, ⟨hi1, hi2⟩, rfl⟩ | rfl)
    · exact Or.inr ⟨i, hi1, by omega, rfl⟩
    · exact Or.inl rfl
  · rintro (rfl | ⟨i, hi1, hi2, rfl⟩)
    · exact Or.inr rfl
    · exact Or.inl ⟨i, ⟨hi1, by omega⟩, rfl⟩

theorem suffixed_intro_not_mem (m : Nat) :
    suffixedID (str "introduction") (m + 2) ∉ introSeen (m + 1) := by
  intro hmem
  rcases mem_introSeen.mp hmem with h | ⟨i, hi1, hi2, h⟩
  · exact suffixedID_ne_base _ _ h
  · have := suffixedID_injective (str "introduction") h
    omega

theorem dedup_introSeen (m : Nat) :
    deduplicateID (str "introduction") (introSeen (m + 1)) =
      (suffixedID (str "introduction") (m + 2), introSeen (m + 2)) := by
  have hmem : str "introduction" ∈ introSeen (m + 1) :=
    mem_introSeen.mpr (Or.inl rfl)
  have hwalk := dedupLoop_walk (str "introduction") (introSeen (m + 1)) m 2
    ((introSeen (m + 1)).length + 1)
    (by rw [introSeen_length]; omega)
    (fun i hi1 hi2 => mem_introSeen.mpr (Or.inr ⟨i, hi1, by omega, rfl⟩))
    (by rw [show 2 + m = m + 2 from by omega]; exact suffixed_intro_not_mem m)
  rw [show 2 + m = m + 2 from by omega] at hwalk
  have hseen : suffixedID (str "introduction") (m + 2) :: introSeen (m + 1) =
      introSeen (m + 2) := by
    unfold introSeen
    rw [show m + 2 - 1 = m + 1 from by omega, show m + 1 - 1 = m from by omega,
      List.range'_concat, show 2 + 1 * m = m + 2 from by omega]
    simp
  unfold deduplicateID
  rw [if_neg (by decide), if_pos hmem]
  simp only [hwalk, hseen]

theorem resolveAux_introSeen :
    ∀ (count m : Nat),
      resolveHeadingIDsAux (List.replicate count (str "Introduction"))
          (introSeen (m + 1)) =
        (List.range' (m + 2) count).map (suffixedID (str "introduction"))
  | 0, m => by simp [resolveHeadingIDsAux]
  | count + 1, m => by
      have hslug : slugifyHeading (str "Introduction") = str "introduction" := by
        decide
      rw [List.replicate_succ]
      simp only [resolveHeadingIDsAux, hslug, dedup_introSeen m]
      rw [resolveAux_introSeen count (m + 1), List.range'_succ]
      simp only [List.map_cons]

/-- C4: `N` sections with identical heading text "Introduction" and no
explicit ids resolve to exactly `["introduction", "introduction_2", ...,
"introduction_N"]` in document order, all distinct (suffixes strictly
increasing, never reused). -/
theorem parse_resolves_duplicate_introductions (N : Nat) (hN : 1 ≤ N) :
    resolveHeadingIDs (List.replicate N (str "Introduction")) =
      str "introduction" ::
        (List.range' 2 (N - 1)).map (suffixedID (str "introduction"))
    ∧ (resolveHeadingIDs (List.replicate N (str "Introduction"))).Nodup := by
  obtain ⟨M, rfl⟩ : ∃ M, N = M + 1 := ⟨N - 1, by omega⟩
  have hslug : slugifyHeading (str "Introduction") = str "introduction" := by
    decide
  have hfirst : deduplicateID (str "introduction") [] =
      (str "introduction", introSeen 1) := by decide
  have hmain : resolveHeadingIDs (List.replicate (M + 1) (str "Introduction")) =
      str "introduction" ::
        (List.range' 2 M).map (suffixedID (str "introduction")) := by
    unfold resolveHeadingIDs
    rw [List.replicate_succ]
    simp only [resolveHeadingIDsAux, hslug, hfirst]
    rw [show (1 : Nat) = 0 + 1 from rfl, resolveAux_introSeen M 0]
  refine ⟨by simpa using hmain, ?_⟩
  rw [hmain]
  refine List.nodup_cons.mpr ⟨?_, ?_⟩
  · intro hmem
    obtain ⟨i, _, hbad⟩ := List.mem_map.mp hmem
    exact suffixedID_ne_base _ _ hbad
  · exact (List.nodup_range' 2 M).map (suffixedID_injective _)

/-- C4 witness: the dedup-monotonicity theorem applied at `N = 3`. -/
theorem parse_resolves_duplicate_introductions_witness :
    (1 : Nat) ≤ 3
    ∧ (resolveHeadingIDs (List.replicate 3 (str "Introduction")) =
        str "introduction" ::
          (List.range' 2 2).map (suffixedID (str "introduction"))
      ∧ (resolveHeadingIDs (List.replicate 3 (str "Introduction"))).Nodup) :=
  ⟨by decide, parse_resolves_duplicate_introductions 3 (by decide)⟩

/-! ## The retrieval-index builder (`WriteIndex` from internal/output) -/

/-- `parse.Section` from internal/parse (string fields as rune lists). -/
structure Section where
  headingText : GoStr
  headingHTML : GoStr
  headingLevel : Nat
  headingID : GoStr
  contentHTML : GoStr
  contentText : GoStr
  anchorTargets : List GoStr
  contentIDs : List GoStr
deriving Repr, Inhabited

/-- `strings.Join(parts, sep)`. -/
def goJoin (sep : GoStr) : List GoStr → GoStr
  | [] => []
  | [l] => l
  | l :: rest => l ++ sep ++ goJoin sep rest

/-- `hierarchy[sec.HeadingLevel] = sec.HeadingText` (the Go map modelled
as a partial function). -/
def hierSet (h : Nat → Option GoStr) (lvl : Nat) (txt : GoStr) : Nat → Option GoStr :=
  fun k => if k = lvl then some txt else h k

/-- The deletion loop: clear every level strictly deeper than `lvl`. -/
def hierClear (h : Nat → Option GoStr) (lvl : Nat) : Nat → Option GoStr :=
  fun k => if lvl < k then none else h k

/-- One step of the `WriteIndex` hierarchy update: set the current level,
then clear the deeper ones. -/
def hierStep (h : Nat → Option GoStr) (lvl : Nat) (txt : GoStr) : Nat → Option GoStr :=
  hierClear (hierSet h lvl txt) lvl

/-- The `"Parent > Child"` breadcrumb: the texts present at levels 1..6,
joined by `" > "`. -/
def headingPathOf (h : Nat → Option GoStr) : GoStr :=
  goJoin (str " > ") ([1, 2, 3, 4, 5, 6].filterMap h)

/-- `IndexRecord` from internal/output/index.go.  The `id` field of the Go
struct is the 16-hex-char SHA-256 prefix of the preimage
`baseURL|headingPath|headingID`; the hash itself (crypto/sha256) is outside
the embedding, so the record carries the preimage as `idRaw`. -/
structure IndexRecord where
  idRaw : GoStr
  url : GoStr
  sourceURL : GoStr
  heading : GoStr
  headingLevel : Nat
  headingPath : GoStr
  content : GoStr
  tokenEstimate : Nat
deriving Repr, DecidableEq

/-- The record-building loop of `WriteIndex` (file writes and JSON
marshalling abstracted away; the emitted records in order). -/
def buildIndexAux (baseURL : GoStr) : (Nat → Option GoStr) → List Section → List IndexRecord
  | _, [] => []
  | h, sec :: rest =>
    let h2 := hierStep h sec.headingLevel sec.headingText
    let hp := headingPathOf h2
    let record : IndexRecord :=
      { idRaw := baseURL ++ '|' :: hp ++ '|' :: sec.headingID
        url := baseURL
        sourceURL := baseURL ++ '#' :: sec.headingID
        heading := sec.headingText
        headingLevel := sec.headingLevel
        headingPath := hp
        content := trimSpace sec.contentHTML
        tokenEstimate := utf8Len sec.contentHTML / 4 }
    record :: buildIndexAux baseURL h2 rest

def buildIndexRecords (baseURL : GoStr) (sections : List Section) : List IndexRecord :=
  buildIndexAux baseURL (fun _ => none) sections

/-- A section with only the fields the hierarchy fold reads. -/
def secOf (lvl : Nat) (txt : GoStr) : Section :=
  ⟨txt, [], lvl, [], [], [], [], []⟩

/-- C5: the heading-path fold over levels `[1, 2, 2, 3, 1]` with texts
`[A, B, C, D, E]` produces `["A", "A > B", "A > C", "A > C > D", "E"]`,
and a level-3 heading immediately after a level-1 produces `"L1 > L3"` —
level gaps are preserved, never back-filled. -/
theorem heading_path_breadcrumb (A B C D E L1 L3 : GoStr) :
    (buildIndexRecords []
        [secOf 1 A, secOf 2 B, secOf 2 C, secOf 3 D, secOf 1 E]).map
        (fun r => r.headingPath) =
      [A, A ++ str " > " ++ B, A ++ str " > " ++ C,
        A ++ str " > " ++ C ++ str " > " ++ D, E]
    ∧ (buildIndexRecords [] [secOf 1 L1, secOf 3 L3]).map
        (fun r => r.headingPath) = [L1, L1 ++ str " > " ++ L3] := by
  constructor <;>
    simp only [buildIndexRecords, buildIndexAux, List.map_cons, List.map_nil,
      headingPathOf, hierStep, hierClear, hierSet, secOf, goJoin,
      List.append_assoc]

/-- C7, counterexample to the claim as stated: for a section whose
`ContentHTML` is `"a    "` (one letter, four trailing spaces) the record's
`tokenEstimate` is `len("a    ")/4 = 1`, while the record's `content`
field is the trimmed `"a"`, whose length divided by 4 is 0 — the estimate
uses the untrimmed `ContentHTML`, not the stored `content`. -/
theorem tokenEstimate_differs_from_content_length :
    (buildIndexRecords [] [⟨str "T", [], 1, str "t", str "a    ", str "a", [], []⟩]).map
        (fun r => (r.tokenEstimate, utf8Len r.content / 4)) = [(1, 0)]
    ∧ ∃ r ∈ buildIndexRecords []
        [⟨str "T", [], 1, str "t", str "a    ", str "a", [], []⟩],
        r.tokenEstimate ≠ utf8Len r.content / 4 := by
  constructor
  · rfl
  · refine ⟨(buildIndexRecords []
      [⟨str "T", [], 1, str "t", str "a    ", str "a", [], []⟩]).head (by decide), ?_, ?_⟩
    · exact List.head_mem _
    · decide

/-- C7 (amended): every emitted record's `tokenEstimate` equals the byte
length of the section's (untrimmed) `ContentHTML` divided by 4 with
integer floor division. -/
theorem tokenEstimate_is_contentHTML_len_div4 (baseURL : GoStr)
    (sections : List Section) :
    (buildIndexRecords baseURL sections).map (fun r => r.tokenEstimate) =
      sections.map (fun s => utf8Len s.contentHTML / 4) := by
  have haux : ∀ (secs : List Section) (h : Nat → Option GoStr),
      (buildIndexAux baseURL h secs).map (fun r => r.tokenEstimate) =
        secs.map (fun s => utf8Len s.contentHTML / 4) := by
    intro secs
    induction secs with
    | nil => intro h; rfl
    | cons s rest ih =>
        intro h
        simp only [buildIndexAux, List.map_cons, ih]
  exact haux sections _

/-! ## Flat-document parsing (`Parse` / `ExtractBySelector` from
internal/parse)

The DOM is modelled at the fidelity the claims' documents exercise:
top-level sibling elements whose children are text nodes.  For such
documents `Parse`'s nested-heading fallback is skipped (the parent is
`body`, which the code explicitly excludes) and the descendant-`[id]`
lookup below a heading finds nothing, so both code paths degenerate
faithfully. -/

/-- A text node. -/
inductive HLeaf where
  | htext (s : GoStr)
deriving Repr, DecidableEq

/-- An element with text-node children. -/
structure HElem where
  tag : GoStr
  idAttr : GoStr
  href : GoStr
  children : List HLeaf
deriving Repr, DecidableEq

abbrev HDoc := List HElem

/-- `goquery` `s.Text()`: the concatenated text of the children. -/
def elemText (e : HElem) : GoStr :=
  (e.children.map (fun l => match l with | .htext s => s)).flatten

/-- `goquery.OuterHtml`: serialized element with its attributes. -/
def outerHtml (e : HElem) : GoStr :=
  '<' :: e.tag ++
    (if e.idAttr ≠ [] then str " id=\x22" ++ e.idAttr ++ ['\x22'] else []) ++
    (if e.href ≠ [] then str " href=\x22" ++ e.href ++ ['\x22'] else []) ++
    '>' :: elemText e ++ str "</" ++ e.tag ++ ['>']

/-- The `h1, h2, h3, h4, h5, h6` selector. -/
def isHeadingElem (e : HElem) : Bool :=
  [str "h1", str "h2", str "h3", str "h4", str "h5", str "h6"].contains e.tag

/-- `headingLevelFromTag` from internal/parse. -/
def headingLevelFromTag (tag : GoStr) : Nat :=
  let t := toLowerGo tag
  if t = str "h1" then 1
  else if t = str "h2" then 2
  else if t = str "h3" then 3
  else if t = str "h4" then 4
  else if t = str "h5" then 5
  else if t = str "h6" then 6
  else 0

/-- `renderSelection` from internal/parse: skip `script, style, noscript`
elements entirely; concatenate outer HTML; concatenate text with a space
separator per element.  (The inner `Find("[id]")` over text-only children
collects nothing, so the collected IDs list is always empty here.) -/
def renderSelection : List HElem → GoStr × GoStr
  | [] => ([], [])
  | e :: rest =>
    let p := renderSelection rest
    if [str "script", str "style", str "noscript"].contains e.tag then p
    else (outerHtml e ++ p.1, (elemText e ++ [' ']) ++ p.2)

/-- The `a[href]` pass of `Parse`: in-page anchor targets (`href`
beginning with `#`, more than one character), de-hashed. -/
def anchorsOf (doc : HDoc) : List GoStr :=
  doc.filterMap (fun e =>
    if e.tag = str "a" ∧ (str "#").isPrefixOf e.href = true ∧ 1 < e.href.length
    then some (e.href.drop 1) else none)

/-- The per-heading walk of `Parse` over a flat document: resolve the raw
ID (the element's own `id`; the descendant fallback finds nothing in a
flat document), take the following siblings up to the next heading
(`NextUntil`), render them, slugify and deduplicate. -/
def parseFlatAux (anchors : List GoStr) : List HElem → List GoStr → List Section
  | [], _ => []
  | e :: rest, seen =>
    if isHeadingElem e = true then
      let rawID := e.idAttr
      let contentSel := rest.takeWhile (fun x => ¬ isHeadingElem x = true)
      let rendered := renderSelection contentSel
      let headingText := trimSpace (elemText e)
      let rawID2 := if rawID = [] then slugifyHeading headingText else rawID
      let p := deduplicateID rawID2 seen
      { headingText := headingText
        headingHTML := outerHtml e
        headingLevel := headingLevelFromTag e.tag
        headingID := p.1
        contentHTML := rendered.1
        contentText := trimSpace rendered.2
        anchorTargets := anchors
        contentIDs := [] } :: parseFlatAux anchors rest p.2
    else parseFlatAux anchors rest seen

/-- `Parse` from internal/parse, restricted to flat documents. -/
def parseFlat (doc : HDoc) : List Section :=
  parseFlatAux (anchorsOf doc) doc []

/-- `strings.Contains(s, substr)`. -/
def goContains : GoStr → GoStr → Bool
  | [], pat => pat.isPrefixOf []
  | s@(_ :: rest), pat => pat.isPrefixOf s || goContains rest pat

/-- The example document of the spec:
`<h1 id="intro">Intro</h1><p>Hello</p><script>x()</script><h2 id="next">Next</h2><p>World</p>`. -/
def exampleDoc : HDoc :=
  [⟨str "h1", str "intro", [], [.htext (str "Intro")]⟩,
    ⟨str "p", [], [], [.htext (str "Hello")]⟩,
    ⟨str "script", [], [], [.htext (str "x()")]⟩,
    ⟨str "h2", str "next", [], [.htext (str "Next")]⟩,
    ⟨str "p", [], [], [.htext (str "World")]⟩]

/-- C8: parsing the example document yields exactly two sections; section
0 has heading ID `intro`, a `contentText` containing `Hello` and a
`contentHTML` with no `script` substring; section 1 has heading ID
`next`. -/
theorem parse_example_end_to_end :
    (parseFlat exampleDoc).length = 2
    ∧ (parseFlat exampleDoc).map (fun s => s.headingID) = [str "intro", str "next"]
    ∧ goContains ((parseFlat exampleDoc).headD default).contentText (str "Hello") = true
    ∧ goContains ((parseFlat exampleDoc).headD default).contentHTML (str "script") = false := by
  exact ⟨by decide, by decide, by decide, by decide⟩

/-- A goquery document paired with its CSS engine: `Find(selector)`
abstracted as the list of matching nodes (the selector engine is an
external collaborator per the spec). -/
structure QueryDoc where
  find : GoStr → List HDoc

/-- The outcome of `ExtractBySelector` on a non-nil document: the input
document unchanged, a new document built from the first matched node, or
an error.  (In goquery `sel.Get(0)` of a nonempty selection is never nil,
so the "selector node missing" branch of the Go code is unrepresentable.) -/
inductive ExtractResult where
  | same
  | sub (node : HDoc)
  | fail (msg : GoStr)
deriving Repr, DecidableEq

/-- `ExtractBySelector` from internal/parse. -/
def ExtractBySelector (doc : QueryDoc) (selector : GoStr) : ExtractResult :=
  if trimSpace selector = [] then .same
  else
    match doc.find selector with
    | [] => .fail (str "selector not found: " ++ selector)
    | n :: _ => .sub n

theorem isPrefixOf_self (l : GoStr) : l.isPrefixOf l = true := by
  induction l with
  | nil => rfl
  | cons c r ih => simp [List.isPrefixOf, ih]

theorem goContains_append_self (a b : GoStr) : goContains (a ++ b) b = true := by
  induction a with
  | nil =>
      cases b with
      | nil => rfl
      | cons c r => simp [goContains, isPrefixOf_self]
  | cons x a2 ih => simp [goContains, ih]

/-- C9: `ExtractBySelector` errs exactly when the trimmed selector is
nonempty and matches nothing; the error message contains the offending
selector; a blank selector returns the input document unchanged. -/
theorem extractBySelector_error_iff (doc : QueryDoc) (selector : GoStr) :
    ((∃ msg, ExtractBySelector doc selector = .fail msg) ↔
      (trimSpace selector ≠ [] ∧ doc.find selector = []))
    ∧ (∀ msg, ExtractBySelector doc selector = .fail msg →
        goContains msg selector = true)
    ∧ (trimSpace selector = [] → ExtractBySelector doc selector = .same) := by
  by_cases htrim : trimSpace selector = []
  · refine ⟨?_, ?_, fun _ => by simp [ExtractBySelector, htrim]⟩
    · simp [ExtractBySelector, htrim]
    · intro msg hmsg
      simp [ExtractBySelector, htrim] at hmsg
  · cases hfind : doc.find selector with
    | nil =>
        refine ⟨?_, ?_, fun hc => absurd hc htrim⟩
        · simp [ExtractBySelector, htrim, hfind]
        · intro msg hmsg
          simp only [ExtractBySelector, if_neg htrim, hfind] at hmsg
          obtain rfl : str "selector not found: " ++ selector = msg :=
            (ExtractResult.fail.inj hmsg)
          exact goContains_append_self _ _
    | cons n ns =>
        refine ⟨?_, ?_, fun hc => absurd hc htrim⟩
        · simp [ExtractBySelector, htrim, hfind]
        · intro msg hmsg
          simp [ExtractBySelector, htrim, hfind] at hmsg

/-- C9 witness: a document whose engine matches nothing, queried with the
selector `main`. -/
theorem extractBySelector_error_iff_witness :
    ExtractBySelector ⟨fun _ => []⟩ (str "main") =
      ExtractResult.fail (str "selector not found: main")
    ∧ goContains (str "selector not found: main") (str "main") = true :=
  ⟨by decide,
    (extractBySelector_error_iff ⟨fun _ => []⟩ (str "main")).2.1
      (str "selector not found: main") (by decide)⟩

end GoScrap
